import Mathlib

/-! ### Cipher (`composite_mapper.rs`, `encrypt_mapper` / `decrypt_mapper`)

`const KEY1: [usize; 16]` and `const KEY2: &[u8] = b"GeneratePackageMapper"`. -/

def KEY1 : List Nat := [12, 6, 9, 4, 3, 14, 1, 10, 13, 2, 7, 15, 0, 8, 5, 11]

def KEY2 : List Nat := [71, 101, 110, 101, 114, 97, 116, 101, 80, 97, 99, 107,
  97, 103, 101, 77, 97, 112, 112, 101, 114]

/-- XOR stage: `for i in 0..size { encrypted[i] ^= KEY2[i % KEY2.len()] }`,
unrolled as a recursion carrying the running index `i`. -/
def xorFrom (i : Nat) : List Nat → List Nat
  | [] => []
  | b :: rest => (b ^^^ KEY2.getD (i % KEY2.length) 0) :: xorFrom (i + 1) rest

def xorStage (l : List Nat) : List Nat := xorFrom 0 l

/-- `Vec::swap(i, j)`; in every use below both indices are in bounds. -/
def swapVec (l : List Nat) (i j : Nat) : List Nat :=
  (l.set i (l.getD j 0)).set j (l.getD i 0)

/-- The mirror-swap loop:
`for _ in 0..count { encrypted.swap(a, b); a += 2; b = b.saturating_sub(2) }`
(`b - 2` is truncated subtraction, exactly `saturating_sub`). -/
def swapLoop : List Nat → Nat → Nat → Nat → List Nat
  | l, _, _, 0 => l
  | l, a, b, c + 1 => swapLoop (swapVec l a b) (a + 2) (b - 2) c

/-- Swap stage: applied only when `size > 2`, with
`a = 1`, `b = size - 1`, `count = (size / 2 + 1) / 2`. -/
def swapStage (l : List Nat) : List Nat :=
  if 2 < l.length then swapLoop l 1 (l.length - 1) ((l.length / 2 + 1) / 2) else l

/-- One encrypted block: `encrypted[offset + i] = tmp[KEY1[i]]` for `i < 16`,
i.e. the output is `KEY1` mapped through reads of the saved block copy. -/
def permuteBlock (blk : List Nat) : List Nat := KEY1.map (fun k => blk.getD k 0)

/-- One decrypted block: `decrypted[offset + KEY1[i]] = tmp[i]` for `i < 16`:
sixteen scattered writes into the block, from the saved copy `blk`. -/
def scatterBlock (blk : List Nat) : List Nat :=
  (List.range 16).foldl (fun acc i => acc.set (KEY1.getD i 0) (blk.getD i 0)) blk

/-- `while offset + 16 <= size` over consecutive 16-byte blocks (encrypt
direction). The fuel is instantiated with the buffer length, which is a
sufficient iteration budget. The trailing partial block is untouched. -/
def blockLoopEnc : Nat → List Nat → List Nat
  | 0, l => l
  | fuel + 1, l =>
    if 16 ≤ l.length then permuteBlock (l.take 16) ++ blockLoopEnc fuel (l.drop 16) else l

/-- The same block loop in the decrypt direction. -/
def blockLoopDec : Nat → List Nat → List Nat
  | 0, l => l
  | fuel + 1, l =>
    if 16 ≤ l.length then scatterBlock (l.take 16) ++ blockLoopDec fuel (l.drop 16) else l

def blockStageEnc (l : List Nat) : List Nat := blockLoopEnc l.length l

def blockStageDec (l : List Nat) : List Nat := blockLoopDec l.length l

/-- `encrypt_mapper`: XOR stage, then swap stage, then block permutation. -/
def encrypt_mapper (input : List Nat) : List Nat :=
  blockStageEnc (swapStage (xorStage input))

/-- The byte-level part of `decrypt_mapper`: inverse block permutation,
then the swap loop again, then the XOR stage again (both self-inverse).
The final `String::from_utf8_lossy` step is modelled separately. -/
def decrypt_bytes (input : List Nat) : List Nat :=
  xorStage (swapStage (blockStageDec input))

/-- Continuation byte test: `0x80..=0xBF`. -/
def isCont (c : Nat) : Bool := 0x80 ≤ c && c ≤ 0xBF

/-- Valid second byte of a three-byte sequence headed by `b`. -/
def utf8Valid2 (b c : Nat) : Bool :=
  if b = 0xE0 then 0xA0 ≤ c && c ≤ 0xBF
  else if b = 0xED then 0x80 ≤ c && c ≤ 0x9F
  else isCont c

/-- Valid second byte of a four-byte sequence headed by `b`. -/
def utf8Valid2f (b c : Nat) : Bool :=
  if b = 0xF0 then 0x90 ≤ c && c ≤ 0xBF
  else if b = 0xF4 then 0x80 ≤ c && c ≤ 0x8F
  else isCont c

def utf8DecodeLossy : List Nat → List Nat
  | [] => []
  | b :: rest =>
    if b < 0x80 then b :: utf8DecodeLossy rest
    else if 0xC2 ≤ b ∧ b ≤ 0xDF then
      match rest with
      | [] => [0xFFFD]
      | c1 :: rest1 =>
        if isCont c1 then ((b - 0xC0) * 64 + (c1 - 0x80)) :: utf8DecodeLossy rest1
        else 0xFFFD :: utf8DecodeLossy (c1 :: rest1)
    else if 0xE0 ≤ b ∧ b ≤ 0xEF then
      match rest with
      | [] => [0xFFFD]
      | c1 :: rest1 =>
        if utf8Valid2 b c1 then
          match rest1 with
          | [] => [0xFFFD]
          | c2 :: rest2 =>
            if isCont c2 then
              ((b - 0xE0) * 4096 + (c1 - 0x80) * 64 + (c2 - 0x80)) ::
                utf8DecodeLossy rest2
            else 0xFFFD :: utf8DecodeLossy (c2 :: rest2)
        else 0xFFFD :: utf8DecodeLossy (c1 :: rest1)
    else if 0xF0 ≤ b ∧ b ≤ 0xF4 then
      match rest with
      | [] => [0xFFFD]
      | c1 :: rest1 =>
        if utf8Valid2f b c1 then
          match rest1 with
          | [] => [0xFFFD]
          | c2 :: rest2 =>
            if isCont c2 then
              match rest2 with
              | [] => [0xFFFD]
              | c3 :: rest3 =>
                if isCont c3 then
                  ((b - 0xF0) * 0x40000 + (c1 - 0x80) * 4096 +
                    (c2 - 0x80) * 64 + (c3 - 0x80)) :: utf8DecodeLossy rest3
                else 0xFFFD :: utf8DecodeLossy (c3 :: rest3)
            else 0xFFFD :: utf8DecodeLossy (c2 :: rest2)
        else 0xFFFD :: utf8DecodeLossy (c1 :: rest1)
    else 0xFFFD :: utf8DecodeLossy rest

/-- UTF-8 encoding of one unicode scalar value (`str::as_bytes` view). -/
def utf8EncodeCp (cp : Nat) : List Nat :=
  if cp < 0x80 then [cp]
  else if cp < 0x800 then [0xC0 + cp / 64, 0x80 + cp % 64]
  else if cp < 0x10000 then
    [0xE0 + cp / 4096, 0x80 + (cp / 64) % 64, 0x80 + cp % 64]
  else
    [0xF0 + cp / 0x40000, 0x80 + (cp / 4096) % 64, 0x80 + (cp / 64) % 64,
      0x80 + cp % 64]

/-- Byte view of a decoded string. -/
def utf8Encode (cps : List Nat) : List Nat := (cps.map utf8EncodeCp).flatten

/-- `decrypt_mapper`: the three inverse byte stages followed by lossy UTF-8
text decoding; the result is the returned `String`, as scalar values. -/
def decrypt_mapper (input : List Nat) : List Nat :=
  utf8DecodeLossy (decrypt_bytes input)

/-- Split at the first occurrence of character `c`: the part before it and
the part after it, or `none` when `c` does not occur. -/
def splitChar (c : Char) : List Char → Option (List Char × List Char)
  | [] => none
  | x :: rest =>
    if x = c then some ([], rest)
    else
      match splitChar c rest with
      | some (pre, suf) => some (x :: pre, suf)
      | none => none

/-- Split at the first occurrence of the two-character separator `,|`. -/
def splitSep : List Char → Option (List Char × List Char)
  | [] => none
  | x :: rest =>
    if x = ',' ∧ rest.head? = some '|' then some ([], rest.tail)
    else
      match splitSep rest with
      | some (pre, suf) => some (x :: pre, suf)
      | none => none

/-- Does `,|` occur somewhere in the string? -/
def hasCB : List Char → Bool
  | [] => false
  | x :: rest => (x = ',' && rest.head? = some '|') || hasCB rest

/-- `str::split(',')`: always yields at least one (possibly empty) field. -/
def splitAll (c : Char) : List Char → List (List Char)
  | [] => [[]]
  | x :: rest =>
    if x = c then [] :: splitAll c rest
    else
      match splitAll c rest with
      | f :: r => (x :: f) :: r
      | [] => [[x]]

/-! ### Decimal numbers (`usize::to_string` and `str::parse::<usize>`) -/

def isDigitCh (c : Char) : Bool := 48 ≤ c.toNat && c.toNat ≤ 57

def digitVal (c : Char) : Nat := c.toNat - 48

def charsVal (cs : List Char) : Nat :=
  cs.foldl (fun acc c => acc * 10 + digitVal c) 0

/-- `str::parse::<usize>` on the digit part: nonempty, all decimal digits,
and no 64-bit overflow (`usize` is 64-bit on the supported targets). -/
def parseNatDigits (cs : List Char) : Option Nat :=
  if cs.isEmpty then none
  else if cs.all isDigitCh then
    if charsVal cs < 2 ^ 64 then some (charsVal cs) else none
  else none

/-- `str::parse::<usize>`: an optional leading `+` sign, then digits
(an empty string is an error). -/
def parseNat (cs : List Char) : Option Nat :=
  match cs with
  | [] => none
  | c :: rest => if c = '+' then parseNatDigits rest else parseNatDigits (c :: rest)

def digitChar (d : Nat) : Char := Char.ofNat (48 + d)

/-- `usize::to_string`, digit-by-digit from the least significant digit;
the fuel `n + 1` is a sufficient iteration budget. -/
def natToCharsGo : Nat → Nat → List Char → List Char
  | 0, _, acc => acc
  | fuel + 1, n, acc =>
    if n < 10 then digitChar n :: acc
    else natToCharsGo fuel (n / 10) (digitChar (n % 10) :: acc)

def natToChars (n : Nat) : List Char := natToCharsGo (n + 1) n []

/-! ### The composite map (`CompositeEntry`, `CompositeMapperFile`) -/

structure CompositeEntry where
  filename : List Char := []
  object_path : List Char := []
  composite_name : List Char := []
  offset : Nat := 0
  size : Nat := 0
deriving DecidableEq, Inhabited

/-- The entry collection of `IndexMap<String, CompositeEntry>`: an ordered
association list with unique keys. -/
abbrev CMapEntries := List (List Char × CompositeEntry)

def indexGet? : CMapEntries → List Char → Option CompositeEntry
  | [], _ => none
  | (k, v) :: rest, key => if k = key then some v else indexGet? rest key

/-- `IndexMap::insert`: an existing key keeps its position and has its
value replaced; a new key is appended at the end. -/
def indexInsert (m : CMapEntries) (k : List Char) (v : CompositeEntry) : CMapEntries :=
  if (indexGet? m k).isSome then
    m.map (fun p => if p.1 = k then (k, v) else p)
  else m ++ [(k, v)]

structure CompositeMapperFile where
  source_path : List Char := []
  source_size : Nat := 0
  composite_map : CMapEntries := []
  dirty : Bool := false
  cached_map : List Char := []
  plaintext : List Char := []
deriving DecidableEq, Inhabited

/-- UTF-8 byte view of a string (Rust `str::as_bytes`). -/
def strBytes (s : List Char) : List Nat :=
  (s.map (fun c => utf8EncodeCp c.toNat)).flatten

/-- `u8::to_ascii_lowercase`. -/
def asciiLower (b : Nat) : Nat := if 65 ≤ b ∧ b ≤ 90 then b + 32 else b

/-- `ascii_eq_ignore_case`: equal byte length, and bytewise
`eq_ignore_ascii_case` (no locale folding). -/
def ascii_eq_ignore_case (a b : List Char) : Bool :=
  (strBytes a).length = (strBytes b).length &&
    ((strBytes a).zip (strBytes b)).all (fun p => asciiLower p.1 = asciiLower p.2)

/-- The segment after the last occurrence of `c` (`rsplit(c).next()`);
the whole string when `c` does not occur. -/
def afterLastChar (c : Char) (s : List Char) : List Char :=
  (s.reverse.takeWhile (fun x => !(x = c))).reverse

def suffixes : List (List Char) :=
  [['_', 'C'], ['_', 'd', 'u', 'p'], ['_', 'l', 'o', 'd', '0'],
   ['_', 'l', 'o', 'd', '1'], ['_', 'l', 'o', 'd', '2'], ['_', 'l', 'o', 'd', '3']]

/-- The suffix-stripping loop: each listed suffix is removed once, in
list order, whenever the current name still ends with it. -/
def stripSuffixes (s : List Char) : List Char :=
  suffixes.foldl
    (fun cur suf => if suf.isSuffixOf cur then cur.take (cur.length - suf.length) else cur) s

/-- `normalize_object_name`: the part after the last `/`, then the part
after the last `.` (`rsplit('.').next()` always yields a segment, so the
`else` fallback in the source is unreachable), then suffix stripping. -/
def normalize_object_name (path : List Char) : List Char :=
  stripSuffixes (afterLastChar '.' (afterLastChar '/' path))

def incomplete_paths_equal (full incomplete : List Char) : Bool :=
  ascii_eq_ignore_case (normalize_object_name full) (normalize_object_name incomplete)

/-! ### Composite map operations (`composite_mapper.rs`) -/

namespace CompositeMapperFile

/-- `get_entry_by_incomplete_object_path`: filter all current entries
through the fuzzy matcher; succeed only on exactly one match. The Rust
`(bool, &mut output)` convention is modelled as an `Option` result. -/
def get_entry_by_incomplete_object_path (f : CompositeMapperFile)
    (path : List Char) : Option CompositeEntry :=
  match (f.composite_map.map Prod.snd).filter
      (fun e => incomplete_paths_equal e.object_path path) with
  | [e] => some e
  | _ => none

/-- `remove_entry`: `shift_remove` by the entry's `composite_name`;
clears `cached_map` when something was removed. Returns the removal flag
together with the updated file. -/
def remove_entry (f : CompositeMapperFile) (entry : CompositeEntry) :
    Bool × CompositeMapperFile :=
  if (indexGet? f.composite_map entry.composite_name).isSome then
    (true, { f with
      composite_map :=
        f.composite_map.eraseP (fun p => decide (p.1 = entry.composite_name)),
      cached_map := [] })
  else (false, f)

/-- `apply_patch`: in-place update of the entry found under
`composite_name`; `none` models the `Err("Composite entry not found")`
return. Sets `dirty` on success. -/
def apply_patch (f : CompositeMapperFile) (composite_name new_filename : List Char)
    (new_offset new_size : Nat) : Option CompositeMapperFile :=
  match indexGet? f.composite_map composite_name with
  | none => none
  | some e =>
    some { f with
      composite_map := f.composite_map.map (fun p =>
        if p.1 = composite_name then
          (p.1, { e with filename := new_filename, offset := new_offset,
                         size := new_size })
        else p),
      dirty := true }

end CompositeMapperFile

/-! ### Parser (`parse_entries_with_offsets`)

The record loop inside one block: scan for `,|`, slice, split on `,`, take
four fields (`unwrap` on a missing field is a panic, modelled as `none`),
numeric fields default to 0 via `unwrap_or(0)`, and insert under the
`composite_name` key. The fuel arguments get a provably sufficient budget:
every iteration consumes at least two characters of the scanned suffix. -/

def parseRecords : Nat → List Char → List Char → CMapEntries → Option CMapEntries
  | 0, _, _, _ => none
  | fuel + 1, filename, block, m =>
    match splitSep block with
    | none => some m
    | some (slice, rest) =>
      match splitAll ',' slice with
      | object_path :: composite_name :: offset_str :: size_str :: _ =>
        parseRecords fuel filename rest
          (indexInsert m composite_name
            { filename := filename, object_path := object_path,
              composite_name := composite_name,
              offset := (parseNat offset_str).getD 0,
              size := (parseNat size_str).getD 0 })
      | _ => none

/-- The block loop: scan for `?` to end a filename (no `?`: loop ends),
then for `!` to end the block (no `!`: `break`, the partial map is kept). -/
def parseBlocks : Nat → List Char → CMapEntries → Option CMapEntries
  | 0, _, _ => none
  | fuel + 1, data, m =>
    match splitChar '?' data with
    | none => some m
    | some (filename, afterQ) =>
      match splitChar '!' afterQ with
      | none => some m
      | some (block, rest) =>
        match parseRecords (block.length + 1) filename block m with
        | none => none
        | some m2 => parseBlocks fuel rest m2

/-- `parse_entries_with_offsets`, starting (as `reload` does) from a
cleared map. `none` models a panic of the field `unwrap`s. -/
def parse_entries_with_offsets (data : List Char) : Option CMapEntries :=
  parseBlocks (data.length + 1) data []

/-- `by_file.entry(filename).or_default().push(entry)`: group entries by
filename in first-occurrence order, appending inside an existing group. -/
def pushGroup : List (List Char × List CompositeEntry) → List Char →
    CompositeEntry → List (List Char × List CompositeEntry)
  | [], f, e => [(f, [e])]
  | (g, es) :: rest, f, e =>
    if g = f then (g, es ++ [e]) :: rest else (g, es) :: pushGroup rest f e

def groupByFile (entries : List CompositeEntry) :
    List (List Char × List CompositeEntry) :=
  entries.foldl (fun acc e => pushGroup acc e.filename e) []

def offsetLe (a b : CompositeEntry) : Bool := decide (a.offset ≤ b.offset)

/-- `entries.sort_by(|a, b| a.offset.cmp(&b.offset))` — a stable sort by
offset, applied to every group. -/
def sortGroups (gs : List (List Char × List CompositeEntry)) :
    List (List Char × List CompositeEntry) :=
  gs.map (fun g => (g.1, g.2.mergeSort offsetLe))

/-- One serialized record: `object_path,composite_name,offset,size,|`. -/
def renderEntry (e : CompositeEntry) : List Char :=
  e.object_path ++ [','] ++ e.composite_name ++ [','] ++
    natToChars e.offset ++ [','] ++ natToChars e.size ++ [',', '|']

/-- One serialized block: `filename?record*!`; groups with an empty
filename are skipped (`continue`). -/
def renderGroup (g : List Char × List CompositeEntry) : List Char :=
  if g.1 = [] then []
  else g.1 ++ ['?'] ++ (g.2.map renderEntry).flatten ++ ['!']

def serialize_composite_map_to_string (m : CMapEntries) : List Char :=
  ((sortGroups (groupByFile (m.map Prod.snd))).map renderGroup).flatten

/-! ### `save` (`composite_mapper.rs` lines 53-60)

`save` serializes the map into a fresh string, encrypts it, and performs a
single `fs::write(dest, encrypted)`. We record the filesystem operations
it issues as a trace. -/

inductive FsOp where
  | write (path : List Char) (data : List Nat)
  | rename (src dst : List Char)
deriving DecidableEq

def FsOp.isRename : FsOp → Bool
  | FsOp.write _ _ => false
  | FsOp.rename _ _ => true

def CompositeMapperFile.saveOps (f : CompositeMapperFile) (dest : List Char) :
    List FsOp :=
  [FsOp.write dest
    (encrypt_mapper (strBytes (serialize_composite_map_to_string f.composite_map)))]

/-- Joining with the separator recovers the original string. -/
def joinC (c : Char) : List (List Char) → List Char
  | [] => []
  | [x] => x
  | x :: y :: xs => x ++ c :: joinC c (y :: xs)

/-- Big-endian digit string of `n` (reference form of `usize::to_string`). -/
def digitsBE (n : Nat) : List Char :=
  if n < 10 then [digitChar n] else digitsBE (n / 10) ++ [digitChar (n % 10)]
termination_by n
decreasing_by exact Nat.div_lt_self (by omega) (by omega)

/-- The shape invariants every entry produced by the parser satisfies;
they are exactly what the serializer needs for a faithful round trip. -/
def EntryWF (e : CompositeEntry) : Prop :=
  (∀ ch ∈ e.object_path, ch ≠ ',' ∧ ch ≠ '!') ∧
  (∀ ch ∈ e.composite_name, ch ≠ ',' ∧ ch ≠ '!') ∧
  e.composite_name.head? ≠ some '|' ∧
  (∀ ch ∈ e.filename, ch ≠ '?') ∧
  e.offset < 2 ^ 64 ∧ e.size < 2 ^ 64

/-- Map invariant: every pair is keyed by its entry's `composite_name`,
entries are well formed, and keys are unique. -/
def MapWF (m : CMapEntries) : Prop :=
  (∀ p ∈ m, p.1 = p.2.composite_name ∧ EntryWF p.2) ∧ (m.map Prod.fst).Nodup

/-- The text of one record without its trailing `,|` separator. -/
def recordBody (e : CompositeEntry) : List Char :=
  e.object_path ++ ',' :: (e.composite_name ++ ',' ::
    (natToChars e.offset ++ ',' :: natToChars e.size))

/-- One record rendered from an arbitrary field list. -/
def renderRecordF (fields : List (List Char)) : List Char :=
  joinC ',' fields ++ [',', '|']

/-- One block rendered from a filename and arbitrary records. -/
def renderBlockF (f : List Char) (recs : List (List (List Char))) : List Char :=
  f ++ '?' :: ((recs.map renderRecordF).flatten ++ ['!'])

def renderTextF (blocks : List (List Char × List (List (List Char)))) : List Char :=
  (blocks.map (fun b => renderBlockF b.1 b.2)).flatten

/-- The list of entries the fuzzy matcher accepts for a query. -/
def matchingEntries (f : CompositeMapperFile) (path : List Char) :
    List CompositeEntry :=
  (f.composite_map.map Prod.snd).filter
    (fun e => incomplete_paths_equal e.object_path path)

/-! ### Mod model (`mod_model.rs`) and application state (`main.rs`) -/

structure TfcPackage where
  offset : Int := 0
  size : Int := 0
  idx : Int := 0
  idx_offset : Int := 0
deriving DecidableEq, Inhabited

structure CompositePackage where
  object_path : List Char := []
  offset : Nat := 0
  size : Nat := 0
  file_version : Nat := 0
  licensee_version : Nat := 0
deriving DecidableEq, Inhabited

structure ModFile where
  region_lock : Bool := false
  mod_file_version : Int := 0
  mod_name : List Char := []
  container : List Char := []
  mod_author : List Char := []
  packages : List CompositePackage := []
  tfc_packages : List TfcPackage := []
deriving DecidableEq, Inhabited

structure ModEntry where
  file : List Char := []
  enabled : Bool := false
  mod_file : ModFile := {}
deriving DecidableEq, Inhabited

structure GameConfigFile where
  mods : List ModEntry := []
deriving DecidableEq, Inhabited

/-- The parts of `TmmApp` the activation engine reads and writes: the mod
list, the active map, the (read-only) backup map, and the persisted
config. Paths, process polling and UI state are I/O-only. -/
structure TmmApp where
  mod_list : List ModEntry := []
  composite_map : CompositeMapperFile := {}
  backup_map : CompositeMapperFile := {}
  game_config : GameConfigFile := {}
deriving DecidableEq, Inhabited

/-- `find_conflicting_indices`: scan mods from index `idx` up; for every
*enabled* mod, push its index once per new package whose `object_path`
equals (by raw string equality) some of its packages' paths — the inner
`break` means at most one push per new package, modelled by `filter`. -/
def find_conflicting_go (idx : Nat) (packages : List CompositePackage) :
    List ModEntry → List Nat
  | [] => []
  | me :: rest =>
    (if me.enabled then
      (packages.filter (fun np => me.mod_file.packages.any
        (fun ep => decide (np.object_path = ep.object_path)))).map (fun _ => idx)
    else [])
    ++ find_conflicting_go (idx + 1) packages rest

def find_conflicting_indices (app : TmmApp) (packages : List CompositePackage) :
    List Nat :=
  find_conflicting_go 0 packages app.mod_list

/-- The package loop of `turn_on_mod`: resolve each declared path in the
*active* map; a miss is logged and skipped; a patch failure is logged and
skipped; a successful patch updates the active map. Never fails. -/
def turn_on_packages : TmmApp → List Char → List CompositePackage → TmmApp
  | app, _, [] => app
  | app, container, pkg :: rest =>
    match app.composite_map.get_entry_by_incomplete_object_path pkg.object_path with
    | none => turn_on_packages app container rest
    | some entry =>
      match app.composite_map.apply_patch entry.composite_name container
          pkg.offset pkg.size with
      | none => turn_on_packages app container rest
      | some cm2 => turn_on_packages { app with composite_map := cm2 } container rest

/-- `turn_on_mod` (always returns `Ok(())` in the source). -/
def turn_on_mod (app : TmmApp) (mod_file : ModFile) : TmmApp :=
  turn_on_packages app mod_file.container mod_file.packages

/-- The package loop of `turn_off_mod`. The second component is the
`Result`: `false` models the `?` on `apply_patch` propagating an `Err`,
which aborts the loop and keeps the state reached so far. A path found in
the backup is reverted; a path absent from the backup but present in the
active map is removed (and `dirty` set); a path absent from both is a
warning (silent or not) with no state change. -/
def turn_off_packages : TmmApp → Bool → List CompositePackage → TmmApp × Bool
  | app, _, [] => (app, true)
  | app, silent, pkg :: rest =>
    match app.backup_map.get_entry_by_incomplete_object_path pkg.object_path with
    | some original =>
      match app.composite_map.apply_patch original.composite_name
          original.filename original.offset original.size with
      | some cm2 => turn_off_packages { app with composite_map := cm2 } silent rest
      | none => (app, false)
    | none =>
      match app.composite_map.get_entry_by_incomplete_object_path pkg.object_path with
      | some active_entry =>
        let r := app.composite_map.remove_entry active_entry
        turn_off_packages
          { app with composite_map := { r.2 with dirty := true } } silent rest
      | none => turn_off_packages app silent rest

def turn_off_mod (app : TmmApp) (mod_file : ModFile) (silent : Bool) :
    TmmApp × Bool :=
  turn_off_packages app silent mod_file.packages

/-- The conflict-disabling loop of `enable_mod_safely`: every conflicting
index that is still enabled has its flag cleared and its mod turned off
with `silent = true` (a `turn_off` error is printed and ignored). -/
def disable_conflicts : TmmApp → List Nat → TmmApp
  | app, [] => app
  | app, idx :: rest =>
    disable_conflicts
      (if (app.mod_list.getD idx default).enabled then
        let cur := app.mod_list.getD idx default
        let appSet := { app with mod_list := app.mod_list.set idx { cur with enabled := false } }
        (turn_off_mod appSet cur.mod_file true).1
      else app)
      rest

/-- `update_mods_list`: stores the list into the persisted game config
(the `save_game_config` file write is I/O). -/
def update_mods_list (app : TmmApp) (mod_data : List ModEntry) : TmmApp :=
  { app with game_config := { mods := mod_data } }

/-- `enable_mod_safely`: bounds check, clone the target, force-disable
every conflicting enabled mod, set the target's flag, turn the target on,
mark the map dirty, and persist the mod list. -/
def enable_mod_safely (app : TmmApp) (index : Nat) : TmmApp :=
  if index ≥ app.mod_list.length then app
  else
    let target_mod := app.mod_list.getD index default
    let app1 := disable_conflicts app
      (find_conflicting_indices app target_mod.mod_file.packages)
    let cur1 := app1.mod_list.getD index default
    let app2 := { app1 with mod_list := app1.mod_list.set index { cur1 with enabled := true } }
    let app3 := turn_on_mod app2 target_mod.mod_file
    let app4 := { app3 with composite_map :=
      { app3.composite_map with dirty := true } }
    update_mods_list app4 app4.mod_list

/-- `apply_enabled_mods`: reset the active map's entries to the backup's,
replay every enabled mod in mod-list order, and mark dirty when the map
is nonempty. Per-mod errors are logged only (and `turn_on_mod` cannot
fail), so the state result is total. -/
def apply_enabled_mods (app : TmmApp) : TmmApp :=
  let app1 := { app with composite_map :=
    { app.composite_map with composite_map := app.backup_map.composite_map } }
  let mods_to_apply := (app1.mod_list.filter (fun e => e.enabled)).map
    (fun e => e.mod_file)
  let app2 := mods_to_apply.foldl (fun a mf => turn_on_mod a mf) app1
  if app2.composite_map.composite_map.isEmpty then app2
  else { app2 with composite_map := { app2.composite_map with dirty := true } }

def pkgA : CompositePackage := { object_path := ['A'] }

def mf5 : ModFile := { packages := [pkgA] }

def app5 : TmmApp :=
  { mod_list := [ { file := ['m','1'], enabled := true, mod_file := mf5 },
                  { file := ['m','2'], enabled := false, mod_file := mf5 } ] }

/-! ### `turn_off` abort behaviour -/

def app6 : TmmApp :=
  { composite_map := { composite_map := [(['Y'], CompositeEntry.mk ['m'] ['b'] ['Y'] 9 9)] },
    backup_map := { composite_map := [(['X'], CompositeEntry.mk ['f'] ['a'] ['X'] 1 2),
                                      (['Y'], CompositeEntry.mk ['f'] ['b'] ['Y'] 3 4)] } }

def mf6 : ModFile :=
  { container := ['m'],
    packages := [ { object_path := ['a'] }, { object_path := ['b'] } ] }

def pkg6z : CompositePackage := { object_path := ['z'] }

/-! ### Cipher stage lemmas -/

theorem xorFrom_xorFrom (l : List Nat) : ∀ i, xorFrom i (xorFrom i l) = l := by
  induction l with
  | nil => intro i; rfl
  | cons b rest ih =>
    intro i
    simp only [xorFrom, ih]
    rw [Nat.xor_assoc, Nat.xor_self, Nat.xor_zero]

theorem xorStage_xorStage (l : List Nat) : xorStage (xorStage l) = l :=
  xorFrom_xorFrom l 0

theorem length_xorFrom (l : List Nat) : ∀ i, (xorFrom i l).length = l.length := by
  induction l with
  | nil => intro i; rfl
  | cons b rest ih => intro i; simp [xorFrom, ih]

theorem length_xorStage (l : List Nat) : (xorStage l).length = l.length :=
  length_xorFrom l 0

theorem length_swapVec (l : List Nat) (i j : Nat) :
    (swapVec l i j).length = l.length := by
  simp [swapVec]

theorem getElem?_swapVec (l : List Nat) (i j k : Nat) :
    (swapVec l i j)[k]? =
      if j = k then (if j < l.length then some (l.getD i 0) else none)
      else if i = k then (if i < l.length then some (l.getD j 0) else none)
      else l[k]? := by
  simp only [swapVec, List.getElem?_set, List.length_set]

theorem getD_eq_getElem? (l : List Nat) (i : Nat) :
    l.getD i 0 = (l[i]?).getD 0 := by
  simp [List.getD_eq_getElem?_getD]

theorem getD_swapVec_of_ne (l : List Nat) (i j k : Nat) (hik : i ≠ k)
    (hjk : j ≠ k) : (swapVec l i j).getD k 0 = l.getD k 0 := by
  rw [getD_eq_getElem?, getD_eq_getElem?, getElem?_swapVec,
    if_neg (fun h => hjk h), if_neg (fun h => hik h)]

theorem getD_swapVec_snd (l : List Nat) (i j : Nat) (hj : j < l.length) :
    (swapVec l i j).getD j 0 = l.getD i 0 := by
  rw [getD_eq_getElem?, getElem?_swapVec, if_pos rfl, if_pos hj]
  rfl

theorem getD_swapVec_fst (l : List Nat) (i j : Nat) (hi : i < l.length)
    (hij : j ≠ i) : (swapVec l i j).getD i 0 = l.getD j 0 := by
  rw [getD_eq_getElem?, getElem?_swapVec, if_neg hij, if_pos rfl, if_pos hi]
  rfl

theorem swapVec_swapVec (l : List Nat) (i j : Nat) (hi : i < l.length)
    (hj : j < l.length) : swapVec (swapVec l i j) i j = l := by
  apply List.ext_getElem?
  intro k
  rw [getElem?_swapVec, length_swapVec]
  by_cases hjk : j = k
  · subst hjk
    rw [if_pos rfl, if_pos hj]
    by_cases hij : j = i
    · subst hij
      rw [getD_swapVec_snd _ _ _ hj, getD_eq_getElem?, List.getElem?_eq_getElem hj]
      rfl
    · rw [getD_swapVec_fst l i j hi hij, getD_eq_getElem?,
        List.getElem?_eq_getElem hj]
      rfl
  · rw [if_neg hjk]
    by_cases hik : i = k
    · subst hik
      rw [if_pos rfl, if_pos hi, getD_swapVec_snd _ _ _ hj, getD_eq_getElem?,
        List.getElem?_eq_getElem hi]
      rfl
    · rw [if_neg hik, getElem?_swapVec, if_neg hjk, if_neg hik]

theorem swapVec_comm (l : List Nat) (i j a b : Nat) (hia : i ≠ a) (hib : i ≠ b)
    (hja : j ≠ a) (hjb : j ≠ b) :
    swapVec (swapVec l i j) a b = swapVec (swapVec l a b) i j := by
  apply List.ext_getElem?
  intro k
  simp only [getElem?_swapVec, length_swapVec]
  rw [getD_swapVec_of_ne l i j a hia hja, getD_swapVec_of_ne l i j b hib hjb,
    getD_swapVec_of_ne l a b i (Ne.symm hia) (Ne.symm hib),
    getD_swapVec_of_ne l a b j (Ne.symm hja) (Ne.symm hjb)]
  by_cases hbk : b = k <;> by_cases hak : a = k <;> by_cases hjk : j = k <;>
    by_cases hik : i = k <;> simp_all

theorem length_swapLoop : ∀ (c : Nat) (l : List Nat) (a b : Nat),
    (swapLoop l a b c).length = l.length := by
  intro c
  induction c with
  | zero => intro l a b; rfl
  | succ c ih => intro l a b; rw [swapLoop, ih, length_swapVec]

theorem swapLoop_swapVec_comm : ∀ (c a b i j : Nat) (l : List Nat),
    4 * c + a ≤ b + 4 → a ≤ b → i < a → b < j →
    swapLoop (swapVec l i j) a b c = swapVec (swapLoop l a b c) i j := by
  intro c
  induction c with
  | zero => intro a b i j l _ _ _ _; rfl
  | succ c ih =>
    intro a b i j l hq hab hia hbj
    have hia' : i ≠ a := Nat.ne_of_lt hia
    have hib' : i ≠ b := Nat.ne_of_lt (Nat.lt_of_lt_of_le hia hab)
    have hja' : j ≠ a := (Nat.ne_of_lt (Nat.lt_of_le_of_lt hab hbj)).symm
    have hjb' : j ≠ b := (Nat.ne_of_lt hbj).symm
    rw [swapLoop, swapLoop, swapVec_comm l i j a b hia' hib' hja' hjb']
    cases c with
    | zero => rfl
    | succ c' =>
      have hb4 : a + 4 ≤ b := by omega
      exact ih (a + 2) (b - 2) i j (swapVec l a b) (by omega) (by omega)
        (by omega) (by omega)

theorem swapLoop_swapLoop : ∀ (c a b : Nat) (l : List Nat),
    4 * c + a ≤ b + 4 → a ≤ b → b < l.length →
    swapLoop (swapLoop l a b c) a b c = l := by
  intro c
  induction c with
  | zero => intro a b l _ _ _; rfl
  | succ c ih =>
    intro a b l hq hab hb
    have ha : a < l.length := Nat.lt_of_le_of_lt hab hb
    cases c with
    | zero =>
      show swapLoop (swapVec l a b) a b 1 = l
      show swapVec (swapVec l a b) a b = l
      exact swapVec_swapVec l a b ha hb
    | succ c' =>
      have hb4 : a + 4 ≤ b := by omega
      rw [swapLoop]
      rw [show swapLoop l a b (c' + 1 + 1) =
        swapLoop (swapVec l a b) (a + 2) (b - 2) (c' + 1) from rfl]
      rw [swapLoop_swapVec_comm (c' + 1) (a + 2) (b - 2) a b
        (swapLoop (swapVec l a b) (a + 2) (b - 2) (c' + 1))
        (by omega) (by omega) (by omega) (by omega)]
      rw [ih (a + 2) (b - 2) (swapVec l a b) (by omega) (by omega)
        (by rw [length_swapVec]; omega)]
      exact swapVec_swapVec l a b ha hb

theorem length_swapStage (l : List Nat) : (swapStage l).length = l.length := by
  by_cases h : 2 < l.length
  · rw [swapStage, if_pos h, length_swapLoop]
  · rw [swapStage, if_neg h]

theorem swapStage_swapStage (l : List Nat) : swapStage (swapStage l) = l := by
  by_cases h : 2 < l.length
  · have e : swapStage l = swapLoop l 1 (l.length - 1) ((l.length / 2 + 1) / 2) := by
      rw [swapStage, if_pos h]
    have hL : (swapStage l).length = l.length := length_swapStage l
    rw [swapStage, hL, if_pos h, e]
    exact swapLoop_swapLoop ((l.length / 2 + 1) / 2) 1 (l.length - 1) l
      (by omega) (by omega) (by omega)
  · have e : swapStage l = l := by rw [swapStage, if_neg h]
    rw [e, e]

theorem length_permuteBlock (blk : List Nat) : (permuteBlock blk).length = 16 := by
  simp [permuteBlock, KEY1]

theorem scatterBlock_permuteBlock (l : List Nat) (h : l.length = 16) :
    scatterBlock (permuteBlock l) = l := by
  obtain ⟨b0, l, rfl⟩ := List.exists_of_length_succ l h
  simp only [List.length_cons, Nat.succ_inj] at h
  obtain ⟨b1, l, rfl⟩ := List.exists_of_length_succ l h
  simp only [List.length_cons, Nat.succ_inj] at h
  obtain ⟨b2, l, rfl⟩ := List.exists_of_length_succ l h
  simp only [List.length_cons, Nat.succ_inj] at h
  obtain ⟨b3, l, rfl⟩ := List.exists_of_length_succ l h
  simp only [List.length_cons, Nat.succ_inj] at h
  obtain ⟨b4, l, rfl⟩ := List.exists_of_length_succ l h
  simp only [List.length_cons, Nat.succ_inj] at h
  obtain ⟨b5, l, rfl⟩ := List.exists_of_length_succ l h
  simp only [List.length_cons, Nat.succ_inj] at h
  obtain ⟨b6, l, rfl⟩ := List.exists_of_length_succ l h
  simp only [List.length_cons, Nat.succ_inj] at h
  obtain ⟨b7, l, rfl⟩ := List.exists_of_length_succ l h
  simp only [List.length_cons, Nat.succ_inj] at h
  obtain ⟨b8, l, rfl⟩ := List.exists_of_length_succ l h
  simp only [List.length_cons, Nat.succ_inj] at h
  obtain ⟨b9, l, rfl⟩ := List.exists_of_length_succ l h
  simp only [List.length_cons, Nat.succ_inj] at h
  obtain ⟨b10, l, rfl⟩ := List.exists_of_length_succ l h
  simp only [List.length_cons, Nat.succ_inj] at h
  obtain ⟨b11, l, rfl⟩ := List.exists_of_length_succ l h
  simp only [List.length_cons, Nat.succ_inj] at h
  obtain ⟨b12, l, rfl⟩ := List.exists_of_length_succ l h
  simp only [List.length_cons, Nat.succ_inj] at h
  obtain ⟨b13, l, rfl⟩ := List.exists_of_length_succ l h
  simp only [List.length_cons, Nat.succ_inj] at h
  obtain ⟨b14, l, rfl⟩ := List.exists_of_length_succ l h
  simp only [List.length_cons, Nat.succ_inj] at h
  obtain ⟨b15, l, rfl⟩ := List.exists_of_length_succ l h
  simp only [List.length_cons, Nat.succ_inj] at h
  rw [List.length_eq_zero.mp h]
  rfl

theorem length_blockLoopEnc : ∀ (fuel : Nat) (l : List Nat),
    (blockLoopEnc fuel l).length = l.length := by
  intro fuel
  induction fuel with
  | zero => intro l; rfl
  | succ fuel ih =>
    intro l
    rw [blockLoopEnc]
    by_cases h : 16 ≤ l.length
    · rw [if_pos h]
      simp [length_permuteBlock, ih, List.length_drop]
      omega
    · rw [if_neg h]

theorem blockLoopDec_blockLoopEnc : ∀ (fuel : Nat) (l : List Nat),
    l.length < 16 * (fuel + 1) →
    blockLoopDec fuel (blockLoopEnc fuel l) = l := by
  intro fuel
  induction fuel with
  | zero =>
    intro l hl
    rfl
  | succ fuel ih =>
    intro l hl
    rw [blockLoopEnc]
    by_cases h : 16 ≤ l.length
    · rw [if_pos h, blockLoopDec]
      have hplen : (permuteBlock (l.take 16)).length = 16 := length_permuteBlock _
      have hlen : (permuteBlock (l.take 16) ++ blockLoopEnc fuel (l.drop 16)).length
          = l.length := by
        simp [hplen, length_blockLoopEnc, List.length_drop]
        omega
      rw [if_pos (by rw [hlen]; exact h)]
      have htake : (permuteBlock (l.take 16) ++ blockLoopEnc fuel (l.drop 16)).take 16
          = permuteBlock (l.take 16) := by
        rw [← hplen]; exact List.take_left _ _
      have hdrop : (permuteBlock (l.take 16) ++ blockLoopEnc fuel (l.drop 16)).drop 16
          = blockLoopEnc fuel (l.drop 16) := by
        rw [← hplen]; exact List.drop_left _ _
      rw [htake, hdrop]
      rw [scatterBlock_permuteBlock (l.take 16) (by simp [List.length_take]; omega)]
      rw [ih (l.drop 16) (by simp [List.length_drop]; omega)]
      exact List.take_append_drop 16 l
    · rw [if_neg h, blockLoopDec, if_neg h]

theorem blockStageDec_blockStageEnc (l : List Nat) :
    blockStageDec (blockStageEnc l) = l := by
  rw [blockStageDec, blockStageEnc, length_blockLoopEnc]
  exact blockLoopDec_blockLoopEnc l.length l (by omega)

/-- Byte-level round trip of the cipher: the three decrypt stages undo the
three encrypt stages exactly, for every byte string (any length). -/
theorem decrypt_bytes_encrypt_mapper (l : List Nat) :
    decrypt_bytes (encrypt_mapper l) = l := by
  rw [decrypt_bytes, encrypt_mapper, blockStageDec_blockStageEnc,
    swapStage_swapStage, xorStage_xorStage]

/-- `decrypt(encrypt(b))`, seen as bytes, is exactly the lossy re-decoding
of `b`: the cipher stages cancel and only the text decoding remains. -/
theorem decrypt_mapper_encrypt_mapper (b : List Nat) :
    decrypt_mapper (encrypt_mapper b) = utf8DecodeLossy b := by
  rw [decrypt_mapper, decrypt_bytes_encrypt_mapper]

/-- C1, counterexample: for the byte string `[0xFF]` (length 1, not valid
UTF-8), decrypting the encryption does not yield the input back — the
lossy text decoding inside `decrypt_mapper` turns `0xFF` into U+FFFD. -/
theorem c1_roundtrip_fails_on_nonutf8 :
    ¬ (utf8Encode (decrypt_mapper (encrypt_mapper [255])) = [255]) := by decide

/-- C1 (amended): for every byte string `b` that lossy UTF-8 decoding
leaves unchanged — in particular every valid UTF-8 byte string, of any
length (empty, 1, 2, or not a multiple of 16) — decrypting the encryption
of `b` yields `b` exactly. At the raw byte level, before text decoding,
`decrypt_bytes (encrypt_mapper b) = b` holds for all `b` without exception
(see `decrypt_bytes_encrypt_mapper`). -/
theorem c1_decrypt_encrypt_roundtrip (b : List Nat)
    (h : utf8Encode (utf8DecodeLossy b) = b) :
    utf8Encode (decrypt_mapper (encrypt_mapper b)) = b := by
  rw [decrypt_mapper_encrypt_mapper, h]

/-- Witness for C1 at the concrete byte string "hi" = `[104, 105]`. -/
theorem c1_decrypt_encrypt_roundtrip_witness :
    utf8Encode (decrypt_mapper (encrypt_mapper [104, 105])) = [104, 105] :=
  c1_decrypt_encrypt_roundtrip [104, 105] (by decide)

/-! ### Scanning lemmas -/

theorem splitChar_append (c : Char) (pre suf : List Char)
    (h : ∀ ch ∈ pre, ch ≠ c) :
    splitChar c (pre ++ c :: suf) = some (pre, suf) := by
  induction pre with
  | nil => simp [splitChar]
  | cons x xs ih =>
    have hx : x ≠ c := h x (by simp)
    rw [List.cons_append, splitChar, if_neg hx,
      ih (fun ch hch => h ch (by simp [hch]))]

theorem splitChar_none (c : Char) (l : List Char) (h : ∀ ch ∈ l, ch ≠ c) :
    splitChar c l = none := by
  induction l with
  | nil => rfl
  | cons x xs ih =>
    rw [splitChar, if_neg (h x (by simp)),
      ih (fun ch hch => h ch (by simp [hch]))]

theorem splitChar_eq_some (c : Char) : ∀ (l pre suf : List Char),
    splitChar c l = some (pre, suf) →
    (∀ ch ∈ pre, ch ≠ c) ∧ l = pre ++ c :: suf := by
  intro l
  induction l with
  | nil => intro pre suf h; simp [splitChar] at h
  | cons x xs ih =>
    intro pre suf h
    rw [splitChar] at h
    by_cases hx : x = c
    · rw [if_pos hx] at h
      simp only [Option.some.injEq, Prod.mk.injEq] at h
      obtain ⟨rfl, rfl⟩ := h
      subst hx
      exact ⟨by simp, rfl⟩
    · rw [if_neg hx] at h
      match hrec : splitChar c xs with
      | some (p, s) =>
        rw [hrec] at h
        simp only [Option.some.injEq, Prod.mk.injEq] at h
        obtain ⟨rfl, rfl⟩ := h
        obtain ⟨h1, h2⟩ := ih p s hrec
        refine ⟨?_, by simp [h2]⟩
        intro ch hch
        rcases List.mem_cons.mp hch with rfl | hch2
        · exact hx
        · exact h1 ch hch2
      | none => rw [hrec] at h; simp at h

theorem splitSep_append (pre suf : List Char) (h : hasCB pre = false) :
    splitSep (pre ++ ',' :: '|' :: suf) = some (pre, suf) := by
  induction pre with
  | nil => simp [splitSep]
  | cons x xs ih =>
    rw [hasCB, Bool.or_eq_false_iff] at h
    have h1 := h.1
    have hcond : ¬(x = ',' ∧ (xs ++ ',' :: '|' :: suf).head? = some '|') := by
      rintro ⟨rfl, hh⟩
      cases xs with
      | nil => simp at hh
      | cons y ys =>
        simp only [List.cons_append, List.head?_cons, Option.some.injEq] at hh
        simp [hh] at h1
    rw [List.cons_append, splitSep, if_neg hcond, ih h.2]

theorem splitSep_none (l : List Char) (h : hasCB l = false) :
    splitSep l = none := by
  induction l with
  | nil => rfl
  | cons x xs ih =>
    rw [hasCB, Bool.or_eq_false_iff] at h
    have hcond : ¬(x = ',' ∧ xs.head? = some '|') := by
      rintro ⟨rfl, hh⟩
      simp [hh] at h
    rw [splitSep, if_neg hcond, ih h.2]

theorem splitSep_eq_some : ∀ (l pre suf : List Char),
    splitSep l = some (pre, suf) →
    hasCB pre = false ∧ l = pre ++ ',' :: '|' :: suf := by
  intro l
  induction l with
  | nil => intro pre suf h; simp [splitSep] at h
  | cons x xs ih =>
    intro pre suf h
    rw [splitSep] at h
    by_cases hx : x = ',' ∧ xs.head? = some '|'
    · rw [if_pos hx] at h
      simp only [Option.some.injEq, Prod.mk.injEq] at h
      obtain ⟨rfl, rfl⟩ := h
      refine ⟨rfl, ?_⟩
      obtain ⟨rfl, hh⟩ := hx
      cases xs with
      | nil => simp at hh
      | cons y ys =>
        simp only [List.head?_cons, Option.some.injEq] at hh
        simp [hh]
    · rw [if_neg hx] at h
      match hrec : splitSep xs with
      | some (p, s) =>
        rw [hrec] at h
        simp only [Option.some.injEq, Prod.mk.injEq] at h
        obtain ⟨rfl, rfl⟩ := h
        obtain ⟨h1, h2⟩ := ih p s hrec
        refine ⟨?_, by simp [h2]⟩
        rw [hasCB, Bool.or_eq_false_iff]
        refine ⟨?_, h1⟩
        by_cases hxc : x = ','
        · subst hxc
          cases p with
          | nil => simp
          | cons y ys =>
            by_cases hy : y = '|'
            · subst hy
              rw [h2] at hx
              simp at hx
            · simp [hy]
        · simp [hxc]
      | none => rw [hrec] at h; simp at h

theorem hasCB_append_cb (xs ys : List Char) :
    hasCB (xs ++ ',' :: '|' :: ys) = true := by
  induction xs with
  | nil => simp [hasCB]
  | cons x xs ih => simp [hasCB, ih]

theorem hasCB_append_no_comma (xs ys : List Char) (hx : ∀ ch ∈ xs, ch ≠ ',')
    (hy : hasCB ys = false) : hasCB (xs ++ ys) = false := by
  induction xs with
  | nil => simpa
  | cons x xs ih =>
    rw [List.cons_append, hasCB, Bool.or_eq_false_iff]
    refine ⟨?_, ih (fun ch hch => hx ch (by simp [hch]))⟩
    have hne : x ≠ ',' := hx x (by simp)
    simp [hne]

theorem hasCB_no_comma (xs : List Char) (hx : ∀ ch ∈ xs, ch ≠ ',') :
    hasCB xs = false := by
  have h := hasCB_append_no_comma xs [] hx rfl
  simpa using h

theorem hasCB_cons_comma (ys : List Char) (hh : ys.head? ≠ some '|')
    (hy : hasCB ys = false) : hasCB (',' :: ys) = false := by
  rw [hasCB, Bool.or_eq_false_iff]
  exact ⟨by simp [hh], hy⟩

/-! ### `split(',')` lemmas -/

theorem splitAll_ne_nil (c : Char) : ∀ l : List Char, splitAll c l ≠ [] := by
  intro l
  induction l with
  | nil => simp [splitAll]
  | cons x xs ih =>
    rw [splitAll]
    by_cases hx : x = c
    · simp [hx]
    · rw [if_neg hx]
      match hrec : splitAll c xs with
      | f :: r => simp
      | [] => exact absurd hrec ih

theorem splitAll_no_sep (c : Char) (l : List Char) (h : ∀ ch ∈ l, ch ≠ c) :
    splitAll c l = [l] := by
  induction l with
  | nil => rfl
  | cons x xs ih =>
    rw [splitAll, if_neg (h x (by simp)), ih (fun ch hch => h ch (by simp [hch]))]

theorem splitAll_append (c : Char) (xs ys : List Char)
    (h : ∀ ch ∈ xs, ch ≠ c) :
    splitAll c (xs ++ c :: ys) = xs :: splitAll c ys := by
  induction xs with
  | nil => simp [splitAll]
  | cons x xr ih =>
    rw [List.cons_append, splitAll, if_neg (h x (by simp)),
      ih (fun ch hch => h ch (by simp [hch]))]

theorem splitAll_field_no_sep (c : Char) : ∀ (l : List Char) (fld : List Char),
    fld ∈ splitAll c l → ∀ ch ∈ fld, ch ≠ c := by
  intro l
  induction l with
  | nil =>
    intro fld hfld ch hch
    rw [splitAll] at hfld
    simp at hfld
    subst hfld
    simp at hch
  | cons x xs ih =>
    intro fld hfld ch hch
    rw [splitAll] at hfld
    by_cases hx : x = c
    · rw [if_pos hx] at hfld
      rcases List.mem_cons.mp hfld with rfl | hf2
      · simp at hch
      · exact ih fld hf2 ch hch
    · rw [if_neg hx] at hfld
      match hrec : splitAll c xs with
      | f :: r =>
        rw [hrec] at hfld
        rcases List.mem_cons.mp hfld with rfl | hf2
        · rcases List.mem_cons.mp hch with rfl | hch2
          · exact hx
          · exact ih f (by rw [hrec]; simp) ch hch2
        · exact ih fld (by rw [hrec]; simp [hf2]) ch hch
      | [] => exact absurd hrec (splitAll_ne_nil c xs)

theorem splitAll_mem_subset (c : Char) : ∀ (l : List Char) (fld : List Char),
    fld ∈ splitAll c l → ∀ ch ∈ fld, ch ∈ l := by
  intro l
  induction l with
  | nil =>
    intro fld hfld ch hch
    rw [splitAll] at hfld
    simp at hfld
    subst hfld
    simp at hch
  | cons x xs ih =>
    intro fld hfld ch hch
    rw [splitAll] at hfld
    by_cases hx : x = c
    · rw [if_pos hx] at hfld
      rcases List.mem_cons.mp hfld with rfl | hf2
      · simp at hch
      · exact List.mem_cons_of_mem x (ih fld hf2 ch hch)
    · rw [if_neg hx] at hfld
      match hrec : splitAll c xs with
      | f :: r =>
        rw [hrec] at hfld
        rcases List.mem_cons.mp hfld with rfl | hf2
        · rcases List.mem_cons.mp hch with rfl | hch2
          · simp
          · exact List.mem_cons_of_mem x (ih f (by rw [hrec]; simp) ch hch2)
        · exact List.mem_cons_of_mem x (ih fld (by rw [hrec]; simp [hf2]) ch hch)
      | [] => exact absurd hrec (splitAll_ne_nil c xs)

theorem joinC_splitAll (c : Char) : ∀ l : List Char, joinC c (splitAll c l) = l := by
  intro l
  induction l with
  | nil => rfl
  | cons x xs ih =>
    rw [splitAll]
    by_cases hx : x = c
    · rw [if_pos hx]
      match hrec : splitAll c xs with
      | f :: r =>
        rw [hrec] at ih
        rw [joinC, ih, hx]
        simp
      | [] => exact absurd hrec (splitAll_ne_nil c xs)
    · rw [if_neg hx]
      match hrec : splitAll c xs with
      | f :: r =>
        rw [hrec] at ih
        cases r with
        | nil => rw [joinC]; rw [joinC] at ih; rw [ih]
        | cons r0 rr =>
          rw [joinC]
          rw [joinC] at ih
          rw [List.cons_append, ih]
      | [] => exact absurd hrec (splitAll_ne_nil c xs)

theorem digitChar_toNat (d : Nat) (h : d < 10) : (digitChar d).toNat = 48 + d := by
  interval_cases d <;> rfl

theorem isDigitCh_digitChar (d : Nat) (h : d < 10) :
    isDigitCh (digitChar d) = true := by
  simp [isDigitCh, digitChar_toNat d h]
  omega

theorem digitVal_digitChar (d : Nat) (h : d < 10) : digitVal (digitChar d) = d := by
  simp [digitVal, digitChar_toNat d h]

theorem natToCharsGo_eq : ∀ (fuel n : Nat) (acc : List Char), n < fuel →
    natToCharsGo fuel n acc = digitsBE n ++ acc := by
  intro fuel
  induction fuel with
  | zero => intro n acc h; omega
  | succ fuel ih =>
    intro n acc h
    rw [natToCharsGo]
    by_cases h10 : n < 10
    · rw [if_pos h10, digitsBE, if_pos h10]
      rfl
    · rw [if_neg h10, digitsBE, if_neg h10]
      have hdiv : n / 10 < n := Nat.div_lt_self (by omega) (by omega)
      rw [ih (n / 10) (digitChar (n % 10) :: acc) (by omega)]
      simp

theorem natToChars_eq_digitsBE (n : Nat) : natToChars n = digitsBE n := by
  rw [natToChars, natToCharsGo_eq (n + 1) n [] (by omega), List.append_nil]

theorem digitsBE_ne_nil_all_digit (n : Nat) :
    digitsBE n ≠ [] ∧ ∀ c ∈ digitsBE n, isDigitCh c = true := by
  induction n using Nat.strong_induction_on with
  | _ n ih =>
    by_cases h10 : n < 10
    · rw [digitsBE, if_pos h10]
      refine ⟨by simp, ?_⟩
      intro c hc
      rw [List.mem_singleton] at hc
      subst hc
      exact isDigitCh_digitChar n h10
    · rw [digitsBE, if_neg h10]
      have hdiv : n / 10 < n := Nat.div_lt_self (by omega) (by omega)
      refine ⟨by simp, ?_⟩
      intro c hc
      rcases List.mem_append.mp hc with hc1 | hc2
      · exact (ih (n / 10) hdiv).2 c hc1
      · rw [List.mem_singleton] at hc2
        subst hc2
        exact isDigitCh_digitChar _ (Nat.mod_lt n (by omega))

theorem charsVal_append_singleton (xs : List Char) (c : Char) :
    charsVal (xs ++ [c]) = 10 * charsVal xs + digitVal c := by
  rw [charsVal, List.foldl_append]
  show charsVal xs * 10 + digitVal c = _
  omega

theorem charsVal_digitsBE (n : Nat) : charsVal (digitsBE n) = n := by
  induction n using Nat.strong_induction_on with
  | _ n ih =>
    by_cases h10 : n < 10
    · rw [digitsBE, if_pos h10]
      show 0 * 10 + digitVal (digitChar n) = n
      rw [digitVal_digitChar n h10]
      omega
    · rw [digitsBE, if_neg h10]
      have hdiv : n / 10 < n := Nat.div_lt_self (by omega) (by omega)
      rw [charsVal_append_singleton, ih (n / 10) hdiv,
        digitVal_digitChar _ (Nat.mod_lt n (by omega))]
      omega

theorem digit_ne_delims (c : Char) (h : isDigitCh c = true) :
    c ≠ ',' ∧ c ≠ '!' ∧ c ≠ '|' ∧ c ≠ '?' ∧ c ≠ '+' := by
  simp only [isDigitCh, Bool.and_eq_true, decide_eq_true_eq] at h
  refine ⟨?_, ?_, ?_, ?_, ?_⟩ <;> (rintro rfl; simp at h)

theorem natToChars_ne_nil_all_digit (n : Nat) :
    natToChars n ≠ [] ∧ ∀ c ∈ natToChars n, isDigitCh c = true := by
  rw [natToChars_eq_digitsBE]
  exact digitsBE_ne_nil_all_digit n

theorem parseNat_natToChars (n : Nat) (h : n < 2 ^ 64) :
    parseNat (natToChars n) = some n := by
  obtain ⟨hne, hdig⟩ := natToChars_ne_nil_all_digit n
  match hcs : natToChars n with
  | [] => exact absurd hcs hne
  | c :: cs =>
    have hc : isDigitCh c = true := by rw [hcs] at hdig; exact hdig c (by simp)
    rw [parseNat, if_neg (digit_ne_delims c hc).2.2.2.2]
    rw [parseNatDigits, if_neg (by simp)]
    have hall : (c :: cs).all isDigitCh = true := by
      rw [List.all_eq_true]
      intro x hx
      rw [hcs] at hdig
      exact hdig x hx
    rw [if_pos hall]
    have hval : charsVal (c :: cs) = n := by
      rw [← hcs, natToChars_eq_digitsBE, charsVal_digitsBE]
    rw [hval, if_pos h]

theorem parseNat_lt (cs : List Char) (v : Nat) (h : parseNat cs = some v) :
    v < 2 ^ 64 := by
  match cs with
  | [] => simp [parseNat] at h
  | c :: rest =>
    rw [parseNat] at h
    by_cases hc : c = '+' <;>
      [rw [if_pos hc] at h; rw [if_neg hc] at h] <;>
      · rw [parseNatDigits] at h
        split at h
        · simp at h
        · split at h
          · split at h
            · injection h with h2
              omega
            · simp at h
          · simp at h

/-! ### Association-list (IndexMap) lemmas -/

theorem indexGet?_isSome_iff : ∀ (m : CMapEntries) (k : List Char),
    (indexGet? m k).isSome = true ↔ k ∈ m.map Prod.fst := by
  intro m
  induction m with
  | nil => intro k; simp [indexGet?]
  | cons p rest ih =>
    intro k
    match p with
    | (k0, v0) =>
      rw [indexGet?]
      by_cases hk : k0 = k
      · subst hk
        simp
      · rw [if_neg hk]
        simp only [List.map_cons, List.mem_cons]
        rw [ih k]
        constructor
        · intro h; exact Or.inr h
        · rintro (rfl | h)
          · exact absurd rfl hk
          · exact h

theorem indexGet?_eq_none_iff (m : CMapEntries) (k : List Char) :
    indexGet? m k = none ↔ k ∉ m.map Prod.fst := by
  rw [← indexGet?_isSome_iff m k]
  cases indexGet? m k <;> simp

theorem keys_indexInsert_of_mem (m : CMapEntries) (k : List Char)
    (v : CompositeEntry) (h : (indexGet? m k).isSome = true) :
    (indexInsert m k v).map Prod.fst = m.map Prod.fst := by
  rw [indexInsert, if_pos h, List.map_map]
  apply List.map_congr_left
  intro p hp
  by_cases hpk : p.1 = k
  · simp [hpk]
  · simp [hpk]

theorem keys_indexInsert_of_not_mem (m : CMapEntries) (k : List Char)
    (v : CompositeEntry) (h : ¬ (indexGet? m k).isSome = true) :
    (indexInsert m k v).map Prod.fst = m.map Prod.fst ++ [k] := by
  rw [indexInsert, if_neg h]
  simp

theorem nodupKeys_indexInsert (m : CMapEntries) (k : List Char)
    (v : CompositeEntry) (h : (m.map Prod.fst).Nodup) :
    ((indexInsert m k v).map Prod.fst).Nodup := by
  by_cases hmem : (indexGet? m k).isSome = true
  · rw [keys_indexInsert_of_mem m k v hmem]
    exact h
  · rw [keys_indexInsert_of_not_mem m k v hmem]
    have hk : k ∉ m.map Prod.fst := by
      rw [← indexGet?_isSome_iff m k]
      simpa using hmem
    simp [List.nodup_append, h, hk]

theorem mem_indexInsert (m : CMapEntries) (k : List Char) (v : CompositeEntry) :
    ∀ p ∈ indexInsert m k v, p = (k, v) ∨ p ∈ m := by
  intro p hp
  rw [indexInsert] at hp
  by_cases hmem : (indexGet? m k).isSome = true
  · rw [if_pos hmem] at hp
    obtain ⟨q, hq, hqp⟩ := List.mem_map.mp hp
    by_cases hqk : q.1 = k
    · rw [if_pos hqk] at hqp
      exact Or.inl hqp.symm
    · rw [if_neg hqk] at hqp
      exact Or.inr (hqp ▸ hq)
  · rw [if_neg hmem] at hp
    rcases List.mem_append.mp hp with h1 | h2
    · exact Or.inr h1
    · simp at h2
      exact Or.inl h2

theorem pair_mem_keys (m : CMapEntries) (k : List Char) (v : CompositeEntry)
    (h : (k, v) ∈ m) : k ∈ m.map Prod.fst := by
  exact List.mem_map.mpr ⟨(k, v), h, rfl⟩

theorem indexGet?_eq_some_iff (m : CMapEntries) (k : List Char)
    (v : CompositeEntry) (hnd : (m.map Prod.fst).Nodup) :
    indexGet? m k = some v ↔ (k, v) ∈ m := by
  induction m with
  | nil => simp [indexGet?]
  | cons p rest ih =>
    match p with
    | (k0, v0) =>
      simp only [List.map_cons, List.nodup_cons] at hnd
      rw [indexGet?]
      by_cases hk : k0 = k
      · subst hk
        rw [if_pos rfl]
        simp only [List.mem_cons, Prod.mk.injEq]
        constructor
        · intro h
          injection h with h2
          exact Or.inl ⟨trivial, h2.symm⟩
        · rintro (⟨_, rfl⟩ | h)
          · rfl
          · exact absurd (pair_mem_keys rest k0 v h) hnd.1
      · rw [if_neg hk, ih hnd.2]
        simp only [List.mem_cons, Prod.mk.injEq]
        constructor
        · intro h; exact Or.inr h
        · rintro (⟨rfl, _⟩ | h)
          · exact absurd rfl hk
          · exact h

theorem indexGet?_perm (m m' : CMapEntries) (hperm : m.Perm m')
    (hnd : (m.map Prod.fst).Nodup) (k : List Char) :
    indexGet? m k = indexGet? m' k := by
  have hnd' : (m'.map Prod.fst).Nodup := hnd.perm (hperm.map Prod.fst)
  match hg : indexGet? m k with
  | some v =>
    rw [eq_comm, indexGet?_eq_some_iff m' k v hnd']
    exact hperm.mem_iff.mp ((indexGet?_eq_some_iff m k v hnd).mp hg)
  | none =>
    rw [eq_comm, indexGet?_eq_none_iff]
    intro hmem
    obtain ⟨p, hp, hpk⟩ := List.mem_map.mp hmem
    have hp2 : p ∈ m := hperm.mem_iff.mpr hp
    have : p.1 ∈ m.map Prod.fst := List.mem_map.mpr ⟨p, hp2, rfl⟩
    rw [hpk] at this
    rw [indexGet?_eq_none_iff] at hg
    exact hg this

theorem foldl_indexInsert_fresh :
    ∀ (es : List CompositeEntry) (m : CMapEntries),
    (∀ e ∈ es, e.composite_name ∉ m.map Prod.fst) →
    (es.map (fun e => e.composite_name)).Nodup →
    es.foldl (fun acc e => indexInsert acc e.composite_name e) m
      = m ++ es.map (fun e => (e.composite_name, e)) := by
  intro es
  induction es with
  | nil => intro m _ _; simp
  | cons e es ih =>
    intro m hfresh hnd
    simp only [List.map_cons, List.nodup_cons] at hnd
    rw [List.foldl_cons]
    have hins : indexInsert m e.composite_name e = m ++ [(e.composite_name, e)] := by
      rw [indexInsert, if_neg]
      intro hsome
      exact hfresh e (by simp) ((indexGet?_isSome_iff m e.composite_name).mp hsome)
    rw [hins, ih (m ++ [(e.composite_name, e)]) ?_ hnd.2]
    · simp
    · intro e' he' hmem
      rw [List.map_append] at hmem
      rcases List.mem_append.mp hmem with h1 | h2
      · exact hfresh e' (by simp [he']) h1
      · simp at h2
        exact hnd.1 (h2 ▸ List.mem_map.mpr ⟨e', he', rfl⟩)

theorem getD_parseNat_lt (cs : List Char) : (parseNat cs).getD 0 < 2 ^ 64 := by
  match h : parseNat cs with
  | some v => simpa using parseNat_lt cs v h
  | none => simp

theorem parseRecords_wf : ∀ (fuel : Nat) (filename block : List Char)
    (m m' : CMapEntries),
    parseRecords fuel filename block m = some m' →
    MapWF m → (∀ ch ∈ block, ch ≠ '!') → (∀ ch ∈ filename, ch ≠ '?') →
    MapWF m' := by
  intro fuel
  induction fuel with
  | zero => intro filename block m m' h; simp [parseRecords] at h
  | succ fuel ih =>
    intro filename block m m' h hwf hblock hfname
    match hsep : splitSep block with
    | none =>
      simp only [parseRecords, hsep, Option.some.injEq] at h
      subst h
      exact hwf
    | some (slice, rest) =>
      obtain ⟨hslice_cb, hblock_eq⟩ := splitSep_eq_some block slice rest hsep
      have hslice_sub : ∀ ch ∈ slice, ch ∈ block := by
        intro ch hch; rw [hblock_eq]; simp [hch]
      have hrest_sub : ∀ ch ∈ rest, ch ∈ block := by
        intro ch hch; rw [hblock_eq]; simp [hch]
      rcases hfl : splitAll ',' slice with _ | ⟨op, _ | ⟨cn, _ | ⟨os, _ | ⟨ss, restf⟩⟩⟩⟩ <;>
        simp only [parseRecords, hsep, hfl] at h
      · simp at h
      · simp at h
      · simp at h
      · simp at h
      · -- the four-field arm: an entry is inserted and the loop continues
        have hop_mem : op ∈ splitAll ',' slice := by rw [hfl]; simp
        have hcn_mem : cn ∈ splitAll ',' slice := by rw [hfl]; simp
        have hewf : EntryWF
            { filename := filename, object_path := op, composite_name := cn,
              offset := (parseNat os).getD 0, size := (parseNat ss).getD 0 } := by
          refine ⟨?_, ?_, ?_, ?_, getD_parseNat_lt os, getD_parseNat_lt ss⟩
          · intro ch hch
            exact ⟨splitAll_field_no_sep ',' slice op hop_mem ch hch,
              hblock ch (hslice_sub ch (splitAll_mem_subset ',' slice op hop_mem ch hch))⟩
          · intro ch hch
            exact ⟨splitAll_field_no_sep ',' slice cn hcn_mem ch hch,
              hblock ch (hslice_sub ch (splitAll_mem_subset ',' slice cn hcn_mem ch hch))⟩
          · show cn.head? ≠ some '|'
            match hcn : cn with
            | [] => simp
            | y :: ys =>
              simp only [List.head?_cons, ne_eq, Option.some.injEq]
              rintro rfl
              have hjoin := joinC_splitAll ',' slice
              rw [hfl] at hjoin
              rw [joinC, joinC] at hjoin
              have hcb : hasCB slice = true := by
                rw [← hjoin, List.cons_append]
                exact hasCB_append_cb op (ys ++ ',' :: joinC ',' (os :: ss :: restf))
              rw [hslice_cb] at hcb
              exact absurd hcb (by simp)
          · exact fun ch hch => hfname ch hch
        refine ih filename rest _ m' h ?_ (fun ch hch => hblock ch (hrest_sub ch hch)) hfname
        constructor
        · intro p hp
          rcases mem_indexInsert m cn _ p hp with rfl | hp2
          · exact ⟨rfl, hewf⟩
          · exact hwf.1 p hp2
        · exact nodupKeys_indexInsert m cn _ hwf.2

theorem parseBlocks_wf : ∀ (fuel : Nat) (data : List Char) (m m' : CMapEntries),
    parseBlocks fuel data m = some m' → MapWF m → MapWF m' := by
  intro fuel
  induction fuel with
  | zero => intro data m m' h; simp [parseBlocks] at h
  | succ fuel ih =>
    intro data m m' h hwf
    match hq : splitChar '?' data with
    | none =>
      simp only [parseBlocks, hq, Option.some.injEq] at h
      subst h
      exact hwf
    | some (filename, afterQ) =>
      match hb : splitChar '!' afterQ with
      | none =>
        simp only [parseBlocks, hq, hb, Option.some.injEq] at h
        subst h
        exact hwf
      | some (block, rest) =>
        match hr : parseRecords (block.length + 1) filename block m with
        | none =>
          simp only [parseBlocks, hq, hb, hr] at h
          simp at h
        | some m2 =>
          simp only [parseBlocks, hq, hb, hr] at h
          refine ih rest m2 m' h ?_
          exact parseRecords_wf (block.length + 1) filename block m m2 hr hwf
            (splitChar_eq_some '!' afterQ block rest hb).1
            (splitChar_eq_some '?' data filename afterQ hq).1

theorem parse_wf (data : List Char) (m : CMapEntries)
    (h : parse_entries_with_offsets data = some m) : MapWF m :=
  parseBlocks_wf (data.length + 1) data [] m h ⟨by simp, by simp⟩

theorem renderEntry_append (e : CompositeEntry) (tail : List Char) :
    renderEntry e ++ tail = recordBody e ++ ',' :: '|' :: tail := by
  simp [renderEntry, recordBody]

theorem natToChars_head_not_bar (n : Nat) :
    (natToChars n).head? ≠ some '|' := by
  obtain ⟨hne, hdig⟩ := natToChars_ne_nil_all_digit n
  match hcs : natToChars n with
  | [] => exact absurd hcs hne
  | c :: cs =>
    have hc : isDigitCh c = true := by rw [hcs] at hdig; exact hdig c (by simp)
    simp only [List.head?_cons, ne_eq, Option.some.injEq]
    rintro rfl
    exact absurd hc (by simp [(digit_ne_delims _ hc).2.2.1]; decide)

theorem natToChars_no_delims (n : Nat) :
    ∀ ch ∈ natToChars n, ch ≠ ',' ∧ ch ≠ '!' ∧ ch ≠ '|' ∧ ch ≠ '?' := by
  intro ch hch
  have h := (natToChars_ne_nil_all_digit n).2 ch hch
  obtain ⟨h1, h2, h3, h4, _⟩ := digit_ne_delims ch h
  exact ⟨h1, h2, h3, h4⟩

theorem hasCB_recordBody (e : CompositeEntry) (h : EntryWF e) :
    hasCB (recordBody e) = false := by
  obtain ⟨hop, hcn, hcnh, _, _, _⟩ := h
  rw [recordBody]
  apply hasCB_append_no_comma _ _ (fun ch hch => (hop ch hch).1)
  apply hasCB_cons_comma
  · cases hcne : e.composite_name with
    | nil => simp
    | cons y ys =>
      rw [hcne] at hcnh
      simp only [List.cons_append, List.head?_cons, ne_eq, Option.some.injEq]
      intro hy
      exact hcnh (by simp [hy])
  · apply hasCB_append_no_comma _ _ (fun ch hch => (hcn ch hch).1)
    apply hasCB_cons_comma
    · cases hno : natToChars e.offset with
      | nil => exact absurd hno (natToChars_ne_nil_all_digit e.offset).1
      | cons c cs =>
        simp only [List.cons_append, List.head?_cons, ne_eq, Option.some.injEq]
        rintro rfl
        have hb := natToChars_head_not_bar e.offset
        rw [hno] at hb
        simp at hb
    · apply hasCB_append_no_comma _ _ (fun ch hch => (natToChars_no_delims _ ch hch).1)
      apply hasCB_cons_comma
      · exact natToChars_head_not_bar e.size
      · exact hasCB_no_comma _ (fun ch hch => (natToChars_no_delims _ ch hch).1)

theorem splitAll_recordBody (e : CompositeEntry) (h : EntryWF e) :
    splitAll ',' (recordBody e) =
      [e.object_path, e.composite_name, natToChars e.offset, natToChars e.size] := by
  obtain ⟨hop, hcn, _, _, _, _⟩ := h
  rw [recordBody]
  rw [splitAll_append ',' _ _ (fun ch hch => (hop ch hch).1)]
  rw [splitAll_append ',' _ _ (fun ch hch => (hcn ch hch).1)]
  rw [splitAll_append ',' _ _ (fun ch hch => (natToChars_no_delims _ ch hch).1)]
  rw [splitAll_no_sep ',' _ (fun ch hch => (natToChars_no_delims _ ch hch).1)]

theorem renderEntry_eq_recordBody (e : CompositeEntry) :
    renderEntry e = recordBody e ++ [',', '|'] := by
  have h := renderEntry_append e []
  simpa using h

theorem renderEntry_no_bang (e : CompositeEntry) (h : EntryWF e) :
    ∀ ch ∈ renderEntry e, ch ≠ '!' := by
  obtain ⟨hop, hcn, _, _, _, _⟩ := h
  intro ch hch
  rw [renderEntry_eq_recordBody, recordBody] at hch
  rcases List.mem_append.mp hch with h1 | h2
  · rcases List.mem_append.mp h1 with ha | hb
    · exact (hop ch ha).2
    · rcases List.mem_cons.mp hb with rfl | hb2
      · decide
      · rcases List.mem_append.mp hb2 with hc | hd
        · exact (hcn ch hc).2
        · rcases List.mem_cons.mp hd with rfl | hd2
          · decide
          · rcases List.mem_append.mp hd2 with he | hf
            · exact (natToChars_no_delims _ ch he).2.1
            · rcases List.mem_cons.mp hf with rfl | hf2
              · decide
              · exact (natToChars_no_delims _ ch hf2).2.1
  · rcases List.mem_cons.mp h2 with rfl | h3
    · decide
    · rcases List.mem_cons.mp h3 with rfl | h4
      · decide
      · simp at h4

theorem renderEntry_length_ge (e : CompositeEntry) :
    2 ≤ (renderEntry e).length := by
  simp [renderEntry]
  omega

theorem parseRecords_render : ∀ (es : List CompositeEntry) (fuel : Nat)
    (f : List Char) (m : CMapEntries),
    (∀ e ∈ es, EntryWF e ∧ e.filename = f) →
    ((es.map renderEntry).flatten).length < fuel →
    parseRecords fuel f ((es.map renderEntry).flatten) m
      = some (es.foldl (fun acc e => indexInsert acc e.composite_name e) m) := by
  intro es
  induction es with
  | nil =>
    intro fuel f m _ hfuel
    match fuel with
    | 0 => omega
    | fuel + 1 =>
      simp only [List.map_nil, List.flatten_nil, List.foldl_nil]
      simp [parseRecords, splitSep]
  | cons e es ih =>
    intro fuel f m hwf hfuel
    obtain ⟨hewf, hef⟩ := hwf e (by simp)
    match fuel with
    | 0 => omega
    | fuel + 1 =>
      rw [List.map_cons, List.flatten_cons, renderEntry_append]
      have hsep : splitSep (recordBody e ++ ',' :: '|' :: (es.map renderEntry).flatten)
          = some (recordBody e, (es.map renderEntry).flatten) :=
        splitSep_append _ _ (hasCB_recordBody e hewf)
      simp only [parseRecords, hsep, splitAll_recordBody e hewf]
      rw [parseNat_natToChars e.offset hewf.2.2.2.2.1,
        parseNat_natToChars e.size hewf.2.2.2.2.2]
      simp only [Option.getD_some]
      have hentry : CompositeEntry.mk f e.object_path e.composite_name
          e.offset e.size = e := by
        cases e
        simp only at hef
        simp [hef]
      rw [hentry]
      have hfuel2 : ((es.map renderEntry).flatten).length < fuel := by
        rw [List.map_cons, List.flatten_cons, List.length_append] at hfuel
        have h2 := renderEntry_length_ge e
        omega
      rw [ih fuel f (indexInsert m e.composite_name e)
        (fun e' he' => hwf e' (by simp [he'])) hfuel2]
      rfl

theorem renderGroup_append (g : List Char × List CompositeEntry)
    (hne : g.1 ≠ []) (tail : List Char) :
    renderGroup g ++ tail
      = g.1 ++ '?' :: ((g.2.map renderEntry).flatten ++ '!' :: tail) := by
  rw [renderGroup, if_neg hne]
  simp

theorem renderGroup_length_ge (g : List Char × List CompositeEntry)
    (hne : g.1 ≠ []) : 2 ≤ (renderGroup g).length := by
  rw [renderGroup, if_neg hne]
  simp
  omega

theorem parseBlocks_render : ∀ (gs : List (List Char × List CompositeEntry))
    (fuel : Nat) (m : CMapEntries),
    (∀ g ∈ gs, g.1 ≠ [] ∧ (∀ ch ∈ g.1, ch ≠ '?') ∧
      ∀ e ∈ g.2, EntryWF e ∧ e.filename = g.1) →
    ((gs.map renderGroup).flatten).length < fuel →
    parseBlocks fuel ((gs.map renderGroup).flatten) m
      = some (gs.foldl (fun acc g =>
          g.2.foldl (fun acc2 e => indexInsert acc2 e.composite_name e) acc) m) := by
  intro gs
  induction gs with
  | nil =>
    intro fuel m _ hfuel
    match fuel with
    | 0 => omega
    | fuel + 1 =>
      simp only [List.map_nil, List.flatten_nil, List.foldl_nil]
      simp [parseBlocks, splitChar]
  | cons g gs ih =>
    intro fuel m hwf hfuel
    obtain ⟨hne, hq, hes⟩ := hwf g (by simp)
    match fuel with
    | 0 => omega
    | fuel + 1 =>
      rw [List.map_cons, List.flatten_cons, renderGroup_append g hne]
      have hq1 : splitChar '?'
          (g.1 ++ '?' :: ((g.2.map renderEntry).flatten ++ '!' :: (gs.map renderGroup).flatten))
          = some (g.1, (g.2.map renderEntry).flatten ++ '!' :: (gs.map renderGroup).flatten) :=
        splitChar_append '?' _ _ hq
      have hb1 : splitChar '!'
          ((g.2.map renderEntry).flatten ++ '!' :: (gs.map renderGroup).flatten)
          = some ((g.2.map renderEntry).flatten, (gs.map renderGroup).flatten) := by
        apply splitChar_append '!'
        intro ch hch
        obtain ⟨rec, hrec, hchrec⟩ := List.mem_flatten.mp hch
        obtain ⟨e, he, rfl⟩ := List.mem_map.mp hrec
        exact renderEntry_no_bang e (hes e he).1 ch hchrec
      have hr1 : parseRecords ((g.2.map renderEntry).flatten.length + 1) g.1
          ((g.2.map renderEntry).flatten) m
          = some (g.2.foldl (fun acc2 e => indexInsert acc2 e.composite_name e) m) :=
        parseRecords_render g.2 _ g.1 m hes (by omega)
      simp only [parseBlocks, hq1, hb1, hr1]
      have hfuel2 : ((gs.map renderGroup).flatten).length < fuel := by
        rw [List.map_cons, List.flatten_cons, List.length_append] at hfuel
        have h2 := renderGroup_length_ge g hne
        omega
      rw [ih fuel _ (fun g' hg' => hwf g' (by simp [hg'])) hfuel2]
      rw [List.foldl_cons]

/-! ### Grouping and sorting permutations -/

theorem pushGroup_flatten_perm :
    ∀ (acc : List (List Char × List CompositeEntry)) (f : List Char)
      (e : CompositeEntry),
    ((pushGroup acc f e).map Prod.snd).flatten.Perm
      ((acc.map Prod.snd).flatten ++ [e]) := by
  intro acc
  induction acc with
  | nil => intro f e; simp [pushGroup]
  | cons g rest ih =>
    intro f e
    match g with
    | (gf, es) =>
      rw [pushGroup]
      by_cases hgf : gf = f
      · rw [if_pos hgf]
        simp only [List.map_cons, List.flatten_cons, List.append_assoc]
        exact List.Perm.append_left es List.perm_append_comm
      · rw [if_neg hgf]
        simp only [List.map_cons, List.flatten_cons, List.append_assoc]
        exact List.Perm.append_left es (ih f e)

theorem groupByFile_flatten_perm (entries : List CompositeEntry) :
    ((groupByFile entries).map Prod.snd).flatten.Perm entries := by
  suffices h : ∀ (es : List CompositeEntry)
      (acc : List (List Char × List CompositeEntry)),
      ((es.foldl (fun a e => pushGroup a e.filename e) acc).map Prod.snd).flatten.Perm
        ((acc.map Prod.snd).flatten ++ es) by
    have h2 := h entries []
    simpa [groupByFile] using h2
  intro es
  induction es with
  | nil => intro acc; simp
  | cons e es ih =>
    intro acc
    rw [List.foldl_cons]
    refine (ih (pushGroup acc e.filename e)).trans ?_
    have hperm := pushGroup_flatten_perm acc e.filename e
    refine (hperm.append_right es).trans ?_
    simp

theorem sortGroups_flatten_perm (gs : List (List Char × List CompositeEntry)) :
    ((sortGroups gs).map Prod.snd).flatten.Perm ((gs.map Prod.snd).flatten) := by
  induction gs with
  | nil => simp [sortGroups]
  | cons g rest ih =>
    show (g.2.mergeSort offsetLe ++ ((sortGroups rest).map Prod.snd).flatten).Perm
      (g.2 ++ (rest.map Prod.snd).flatten)
    exact (List.mergeSort_perm g.2 offsetLe).append ih

theorem pushGroup_groups (P : CompositeEntry → Prop) :
    ∀ (acc : List (List Char × List CompositeEntry)) (f : List Char)
      (e : CompositeEntry),
    (∀ g ∈ acc, g.2 ≠ [] ∧ ∀ e' ∈ g.2, P e' ∧ e'.filename = g.1) →
    P e → e.filename = f →
    ∀ g ∈ pushGroup acc f e, g.2 ≠ [] ∧ ∀ e' ∈ g.2, P e' ∧ e'.filename = g.1 := by
  intro acc
  induction acc with
  | nil =>
    intro f e _ hPe hef g hg
    rw [pushGroup] at hg
    simp only [List.mem_singleton] at hg
    subst hg
    refine ⟨by simp, ?_⟩
    intro e' he'
    simp only [List.mem_singleton] at he'
    subst he'
    exact ⟨hPe, hef⟩
  | cons g0 rest ih =>
    intro f e hacc hPe hef g hg
    match g0 with
    | (gf, es) =>
      rw [pushGroup] at hg
      by_cases hgf : gf = f
      · rw [if_pos hgf] at hg
        rcases List.mem_cons.mp hg with rfl | hg2
        · obtain ⟨hne, hmem⟩ := hacc (gf, es) (by simp)
          refine ⟨by simp, ?_⟩
          intro e' he'
          rcases List.mem_append.mp he' with h1 | h2
          · exact hmem e' h1
          · simp only [List.mem_singleton] at h2
            subst h2
            exact ⟨hPe, by rw [hef, hgf]⟩
        · exact hacc g (by simp [hg2])
      · rw [if_neg hgf] at hg
        rcases List.mem_cons.mp hg with rfl | hg2
        · exact hacc (gf, es) (by simp)
        · exact ih f e (fun g' hg' => hacc g' (by simp [hg'])) hPe hef g hg2

theorem groupByFile_groups (P : CompositeEntry → Prop)
    (entries : List CompositeEntry) (hP : ∀ e ∈ entries, P e) :
    ∀ g ∈ groupByFile entries, g.2 ≠ [] ∧ ∀ e' ∈ g.2, P e' ∧ e'.filename = g.1 := by
  suffices h : ∀ (es : List CompositeEntry)
      (acc : List (List Char × List CompositeEntry)),
      (∀ g ∈ acc, g.2 ≠ [] ∧ ∀ e' ∈ g.2, P e' ∧ e'.filename = g.1) →
      (∀ e ∈ es, P e) →
      ∀ g ∈ es.foldl (fun a e => pushGroup a e.filename e) acc,
        g.2 ≠ [] ∧ ∀ e' ∈ g.2, P e' ∧ e'.filename = g.1 by
    exact h entries [] (by simp) hP
  intro es
  induction es with
  | nil => intro acc hacc _; exact hacc
  | cons e es ih =>
    intro acc hacc hes
    rw [List.foldl_cons]
    exact ih (pushGroup acc e.filename e)
      (pushGroup_groups P acc e.filename e hacc (hes e (by simp)) rfl)
      (fun e' he' => hes e' (by simp [he']))

theorem sortGroups_groups (P : CompositeEntry → Prop)
    (gs : List (List Char × List CompositeEntry))
    (h : ∀ g ∈ gs, g.2 ≠ [] ∧ ∀ e' ∈ g.2, P e' ∧ e'.filename = g.1) :
    ∀ g ∈ sortGroups gs, g.2 ≠ [] ∧ ∀ e' ∈ g.2, P e' ∧ e'.filename = g.1 := by
  intro g hg
  rw [sortGroups] at hg
  obtain ⟨g0, hg0, rfl⟩ := List.mem_map.mp hg
  obtain ⟨hne, hmem⟩ := h g0 hg0
  constructor
  · show g0.2.mergeSort offsetLe ≠ []
    intro hnil
    have hlen := (List.mergeSort_perm g0.2 offsetLe).length_eq
    rw [hnil] at hlen
    exact hne (List.length_eq_zero.mp hlen.symm)
  · intro e' he'
    exact hmem e' ((List.mergeSort_perm g0.2 offsetLe).mem_iff.mp he')

/-- C2: for any well-formed input text (one whose parsed entries carry a
nonempty container filename — the serializer skips empty-filename groups),
re-parsing the serialization of `parse(bytes)` yields a map that is a
permutation of `parse(bytes)` and agrees with it on every key lookup
(field-wise equality, the only difference being the order in which entries
are listed); moreover serialization emits every container block's records
sorted by `offset` ascending. -/
theorem c2_parse_serialize_roundtrip (data : List Char) (m : CMapEntries)
    (hp : parse_entries_with_offsets data = some m)
    (hnf : ∀ p ∈ m, p.2.filename ≠ []) :
    (∃ m', parse_entries_with_offsets (serialize_composite_map_to_string m) = some m'
      ∧ m'.Perm m ∧ ∀ k, indexGet? m' k = indexGet? m k)
    ∧ ∀ g ∈ sortGroups (groupByFile (m.map Prod.snd)),
        g.2.Pairwise (fun a b => a.offset ≤ b.offset) := by
  have hwf := parse_wf data m hp
  constructor
  · -- the round trip
    have hPall : ∀ e ∈ m.map Prod.snd, EntryWF e ∧ e.filename ≠ [] := by
      intro e he
      obtain ⟨p, hpm, rfl⟩ := List.mem_map.mp he
      exact ⟨(hwf.1 p hpm).2, hnf p hpm⟩
    have hgroups := sortGroups_groups _ _
      (groupByFile_groups _ (m.map Prod.snd) hPall)
    have hconds : ∀ g ∈ sortGroups (groupByFile (m.map Prod.snd)),
        g.1 ≠ [] ∧ (∀ ch ∈ g.1, ch ≠ '?') ∧
        ∀ e ∈ g.2, EntryWF e ∧ e.filename = g.1 := by
      intro g hg
      obtain ⟨hne, hmem⟩ := hgroups g hg
      obtain ⟨e0, he0⟩ := List.exists_mem_of_ne_nil g.2 hne
      obtain ⟨⟨hewf0, hnf0⟩, hfe0⟩ := hmem e0 he0
      refine ⟨hfe0 ▸ hnf0, ?_, ?_⟩
      · intro ch hch
        exact hewf0.2.2.2.1 ch (hfe0 ▸ hch)
      · intro e he
        obtain ⟨⟨hewf, _⟩, hfe⟩ := hmem e he
        exact ⟨hewf, hfe⟩
    have hrender := parseBlocks_render
      (sortGroups (groupByFile (m.map Prod.snd)))
      ((((sortGroups (groupByFile (m.map Prod.snd))).map renderGroup).flatten).length + 1)
      [] hconds (by omega)
    have hser : parse_entries_with_offsets (serialize_composite_map_to_string m)
        = some ((sortGroups (groupByFile (m.map Prod.snd))).foldl
          (fun acc g => g.2.foldl (fun acc2 e => indexInsert acc2 e.composite_name e) acc)
          []) := hrender
    have hfold : (sortGroups (groupByFile (m.map Prod.snd))).foldl
          (fun acc g => g.2.foldl (fun acc2 e => indexInsert acc2 e.composite_name e) acc) []
        = (((sortGroups (groupByFile (m.map Prod.snd))).map Prod.snd).flatten).foldl
          (fun acc e => indexInsert acc e.composite_name e) [] := by
      rw [List.foldl_flatten, List.foldl_map]
    have hperm : (((sortGroups (groupByFile (m.map Prod.snd))).map Prod.snd).flatten).Perm
        (m.map Prod.snd) :=
      (sortGroups_flatten_perm _).trans (groupByFile_flatten_perm _)
    have hkeys_eq : (m.map Prod.snd).map (fun e => e.composite_name)
        = m.map Prod.fst := by
      rw [List.map_map]
      apply List.map_congr_left
      intro p hp
      exact ((hwf.1 p hp).1).symm
    have hnodup_vals : ((m.map Prod.snd).map (fun e => e.composite_name)).Nodup := by
      rw [hkeys_eq]; exact hwf.2
    have hnodup_flat : ((((sortGroups (groupByFile (m.map Prod.snd))).map
        Prod.snd).flatten).map (fun e => e.composite_name)).Nodup :=
      hnodup_vals.perm (hperm.map (fun e => e.composite_name)).symm
    have hfoldfresh := foldl_indexInsert_fresh
      (((sortGroups (groupByFile (m.map Prod.snd))).map Prod.snd).flatten) []
      (by simp) hnodup_flat
    refine ⟨_, hser, ?_, ?_⟩
    · rw [hfold, hfoldfresh, List.nil_append]
      have hm_eq : (m.map Prod.snd).map (fun e => (e.composite_name, e)) = m := by
        rw [List.map_map]
        conv_rhs => rw [show m = m.map id from (List.map_id m).symm]
        apply List.map_congr_left
        intro p hp
        show (p.2.composite_name, p.2) = id p
        have hk := (hwf.1 p hp).1
        simp [← hk]
      have hme : ((m.map Prod.snd).map (fun e => (e.composite_name, e))).Perm m := by
        rw [hm_eq]
      exact (hperm.map (fun e => (e.composite_name, e))).trans hme
    · intro k
      rw [hfold, hfoldfresh, List.nil_append]
      have hm_eq : (m.map Prod.snd).map (fun e => (e.composite_name, e)) = m := by
        rw [List.map_map]
        conv_rhs => rw [show m = m.map id from (List.map_id m).symm]
        apply List.map_congr_left
        intro p hp
        show (p.2.composite_name, p.2) = id p
        have hk := (hwf.1 p hp).1
        simp [← hk]
      have hme : ((m.map Prod.snd).map (fun e => (e.composite_name, e))).Perm m := by
        rw [hm_eq]
      have hpermm : ((((sortGroups (groupByFile (m.map Prod.snd))).map
          Prod.snd).flatten).map (fun e => (e.composite_name, e))).Perm m :=
        (hperm.map (fun e => (e.composite_name, e))).trans hme
      apply indexGet?_perm _ m hpermm
      have : ((((sortGroups (groupByFile (m.map Prod.snd))).map Prod.snd).flatten).map
          (fun e => (e.composite_name, e))).map Prod.fst
          = (((sortGroups (groupByFile (m.map Prod.snd))).map Prod.snd).flatten).map
            (fun e => e.composite_name) := by
        rw [List.map_map]
        rfl
      rw [this]
      exact hnodup_flat
  · -- within-group sortedness by offset, ascending
    intro g hg
    rw [sortGroups] at hg
    obtain ⟨g0, _, rfl⟩ := List.mem_map.mp hg
    have hs := @List.sorted_mergeSort _ offsetLe
      (fun a b c hab hbc => by
        simp only [offsetLe, decide_eq_true_eq] at *
        omega)
      (fun a b => by
        simp only [offsetLe]
        rcases Nat.le_total a.offset b.offset with h | h <;> simp [h])
      g0.2
    exact hs.imp (fun hab => by simpa [offsetLe] using hab)

theorem hasCB_no_bar (l : List Char) (h : ∀ ch ∈ l, ch ≠ '|') :
    hasCB l = false := by
  induction l with
  | nil => rfl
  | cons x xs ih =>
    rw [hasCB, Bool.or_eq_false_iff]
    refine ⟨?_, ih (fun ch hch => h ch (by simp [hch]))⟩
    cases xs with
    | nil => simp
    | cons y ys =>
      have hy : y ≠ '|' := h y (by simp)
      simp [hy]

theorem joinC_mem (c : Char) : ∀ (fields : List (List Char)) (ch : Char),
    ch ∈ joinC c fields → ch = c ∨ ∃ fld ∈ fields, ch ∈ fld := by
  intro fields
  induction fields with
  | nil => intro ch hch; simp [joinC] at hch
  | cons x xs ih =>
    intro ch hch
    cases xs with
    | nil =>
      rw [joinC] at hch
      exact Or.inr ⟨x, by simp, hch⟩
    | cons y ys =>
      rw [joinC] at hch
      rcases List.mem_append.mp hch with h1 | h2
      · exact Or.inr ⟨x, by simp, h1⟩
      · rcases List.mem_cons.mp h2 with rfl | h3
        · exact Or.inl rfl
        · rcases ih ch h3 with h4 | ⟨fld, hfld, hchf⟩
          · exact Or.inl h4
          · exact Or.inr ⟨fld, by simp [hfld], hchf⟩

theorem splitAll_joinC : ∀ (fields : List (List Char)), fields ≠ [] →
    (∀ fld ∈ fields, ∀ ch ∈ fld, ch ≠ ',') →
    splitAll ',' (joinC ',' fields) = fields := by
  intro fields
  induction fields with
  | nil => intro h; exact absurd rfl h
  | cons x xs ih =>
    intro _ h
    cases xs with
    | nil =>
      rw [joinC]
      exact splitAll_no_sep ',' x (h x (by simp))
    | cons y ys =>
      rw [joinC, splitAll_append ',' x _ (h x (by simp))]
      rw [ih (by simp) (fun fld hfld ch hch => h fld (by simp [hfld]) ch hch)]

theorem renderRecordF_append (rec : List (List Char)) (tail : List Char) :
    renderRecordF rec ++ tail = joinC ',' rec ++ ',' :: '|' :: tail := by
  simp [renderRecordF]

theorem renderRecordF_length_ge (rec : List (List Char)) :
    2 ≤ (renderRecordF rec).length := by
  simp [renderRecordF]

theorem parseRecordsF_some : ∀ (recs : List (List (List Char))) (fuel : Nat)
    (f : List Char) (m : CMapEntries),
    (∀ rec ∈ recs, 4 ≤ rec.length ∧
      ∀ fld ∈ rec, ∀ ch ∈ fld, ch ≠ ',' ∧ ch ≠ '!' ∧ ch ≠ '|') →
    ((recs.map renderRecordF).flatten).length < fuel →
    (parseRecords fuel f ((recs.map renderRecordF).flatten) m).isSome = true := by
  intro recs
  induction recs with
  | nil =>
    intro fuel f m _ hfuel
    match fuel with
    | 0 => omega
    | fuel + 1 => simp [parseRecords, splitSep]
  | cons rec recs ih =>
    intro fuel f m hwf hfuel
    obtain ⟨hlen4, hfld⟩ := hwf rec (by simp)
    match fuel with
    | 0 => omega
    | fuel + 1 =>
      rw [List.map_cons, List.flatten_cons, renderRecordF_append]
      have hnobar : ∀ ch ∈ joinC ',' rec, ch ≠ '|' := by
        intro ch hch
        rcases joinC_mem ',' rec ch hch with rfl | ⟨fld, hf, hc⟩
        · decide
        · exact (hfld fld hf ch hc).2.2
      have hsep : splitSep (joinC ',' rec ++ ',' :: '|' :: (recs.map renderRecordF).flatten)
          = some (joinC ',' rec, (recs.map renderRecordF).flatten) :=
        splitSep_append _ _ (hasCB_no_bar _ hnobar)
      have hne : rec ≠ [] := by
        intro h; rw [h] at hlen4; simp at hlen4
      have hfl : splitAll ',' (joinC ',' rec) = rec :=
        splitAll_joinC rec hne (fun fld hf ch hc => (hfld fld hf ch hc).1)
      rcases rec with _ | ⟨a, _ | ⟨b, _ | ⟨c, _ | ⟨d, rest⟩⟩⟩⟩
      · simp at hlen4
      · simp at hlen4
      · simp at hlen4
      · simp at hlen4
      · simp only [parseRecords, hsep, hfl]
        apply ih fuel f _ (fun r hr => hwf r (by simp [hr]))
        rw [List.map_cons, List.flatten_cons, List.length_append] at hfuel
        have h2 := renderRecordF_length_ge (a :: b :: c :: d :: rest)
        omega

theorem renderBlockF_length_ge (f : List Char) (recs : List (List (List Char))) :
    2 ≤ (renderBlockF f recs).length := by
  simp [renderBlockF]
  omega

theorem parseBlocksF_some : ∀ (blocks : List (List Char × List (List (List Char))))
    (fuel : Nat) (m : CMapEntries),
    (∀ b ∈ blocks, (∀ ch ∈ b.1, ch ≠ '?') ∧
      ∀ rec ∈ b.2, 4 ≤ rec.length ∧
        ∀ fld ∈ rec, ∀ ch ∈ fld, ch ≠ ',' ∧ ch ≠ '!' ∧ ch ≠ '|') →
    ((blocks.map (fun b => renderBlockF b.1 b.2)).flatten).length < fuel →
    (parseBlocks fuel ((blocks.map (fun b => renderBlockF b.1 b.2)).flatten) m).isSome
      = true := by
  intro blocks
  induction blocks with
  | nil =>
    intro fuel m _ hfuel
    match fuel with
    | 0 => omega
    | fuel + 1 => simp [parseBlocks, splitChar]
  | cons b blocks ih =>
    intro fuel m hwf hfuel
    obtain ⟨hq, hrecs⟩ := hwf b (by simp)
    match fuel with
    | 0 => omega
    | fuel + 1 =>
      rw [List.map_cons, List.flatten_cons]
      have hshape : renderBlockF b.1 b.2 ++ ((blocks.map (fun b => renderBlockF b.1 b.2)).flatten)
          = b.1 ++ '?' :: ((b.2.map renderRecordF).flatten ++
            '!' :: (blocks.map (fun b => renderBlockF b.1 b.2)).flatten) := by
        simp [renderBlockF]
      rw [hshape]
      have hq1 := splitChar_append '?' b.1
        ((b.2.map renderRecordF).flatten ++
          '!' :: (blocks.map (fun b => renderBlockF b.1 b.2)).flatten) hq
      have hb1 : splitChar '!'
          ((b.2.map renderRecordF).flatten ++
            '!' :: (blocks.map (fun b => renderBlockF b.1 b.2)).flatten)
          = some ((b.2.map renderRecordF).flatten,
              (blocks.map (fun b => renderBlockF b.1 b.2)).flatten) := by
        apply splitChar_append '!'
        intro ch hch
        obtain ⟨rtext, hrtext, hchr⟩ := List.mem_flatten.mp hch
        obtain ⟨rec, hrec, rfl⟩ := List.mem_map.mp hrtext
        rw [renderRecordF] at hchr
        rcases List.mem_append.mp hchr with h1 | h2
        · rcases joinC_mem ',' rec ch h1 with rfl | ⟨fld, hf, hc⟩
          · decide
          · exact ((hrecs rec hrec).2 fld hf ch hc).2.1
        · rcases List.mem_cons.mp h2 with rfl | h3
          · decide
          · simp only [List.mem_singleton] at h3
            subst h3
            decide
      have hr1 : (parseRecords ((b.2.map renderRecordF).flatten.length + 1) b.1
          ((b.2.map renderRecordF).flatten) m).isSome = true :=
        parseRecordsF_some b.2 _ b.1 m hrecs (by omega)
      match hr2 : parseRecords ((b.2.map renderRecordF).flatten.length + 1) b.1
          ((b.2.map renderRecordF).flatten) m with
      | none => rw [hr2] at hr1; simp at hr1
      | some m2 =>
        simp only [parseBlocks, hq1, hb1, hr2]
        apply ih fuel m2 (fun b' hb' => hwf b' (by simp [hb']))
        rw [List.map_cons, List.flatten_cons, List.length_append] at hfuel
        have h2 := renderBlockF_length_ge b.1 b.2
        omega

/-- Witness for C2 at the concrete input text `f?a,X,1,2,|!`. -/
theorem c2_parse_serialize_roundtrip_witness :
    (∃ m', parse_entries_with_offsets (serialize_composite_map_to_string
        [(['X'], CompositeEntry.mk ['f'] ['a'] ['X'] 1 2)]) = some m'
      ∧ m'.Perm [(['X'], CompositeEntry.mk ['f'] ['a'] ['X'] 1 2)]
      ∧ ∀ k, indexGet? m' k
          = indexGet? [(['X'], CompositeEntry.mk ['f'] ['a'] ['X'] 1 2)] k)
    ∧ ∀ g ∈ sortGroups (groupByFile
        (([(['X'], CompositeEntry.mk ['f'] ['a'] ['X'] 1 2)] : CMapEntries).map Prod.snd)),
        g.2.Pairwise (fun a b => a.offset ≤ b.offset) :=
  c2_parse_serialize_roundtrip
    ['f', '?', 'a', ',', 'X', ',', '1', ',', '2', ',', '|', '!']
    [(['X'], CompositeEntry.mk ['f'] ['a'] ['X'] 1 2)]
    (by decide) (by decide)

/-- C3, counterexample: the decrypted input `f?a,|!` makes parsing panic
(the record fragment `a` before its `,|` separator has fewer than four
comma-separated fields, so the third `it.next().unwrap()` unwraps `None`);
the result is a crash, not a partial map. -/
theorem c3_parse_panics_on_short_record :
    parse_entries_with_offsets ['f', '?', 'a', ',', '|', '!'] = none := by decide

/-- C3 (amended): parsing is lenient everywhere except for short records.
(1) Every input made of blocks whose records have at least four fields
free of the delimiter characters parses without error — including fields
holding unparsable numbers; (2) a missing `!` terminator ends parsing
early with the (possibly empty) partial map instead of an error; and
(3) unparsable offset/size fields default to 0, e.g. `f?a,X,jk,z,|!`
parses to an entry with offset 0 and size 0. A record with fewer than
four fields, however, panics (see the counterexample). -/
theorem c3_lenient_parsing :
    (∀ blocks : List (List Char × List (List (List Char))),
      (∀ b ∈ blocks, (∀ ch ∈ b.1, ch ≠ '?') ∧
        ∀ rec ∈ b.2, 4 ≤ rec.length ∧
          ∀ fld ∈ rec, ∀ ch ∈ fld, ch ≠ ',' ∧ ch ≠ '!' ∧ ch ≠ '|') →
      (parse_entries_with_offsets (renderTextF blocks)).isSome = true)
    ∧ (∀ (f tail : List Char), (∀ ch ∈ f, ch ≠ '?') → (∀ ch ∈ tail, ch ≠ '!') →
      parse_entries_with_offsets (f ++ '?' :: tail) = some [])
    ∧ parse_entries_with_offsets
        ['f', '?', 'a', ',', 'X', ',', 'j', 'k', ',', 'z', ',', '|', '!']
      = some [(['X'], CompositeEntry.mk ['f'] ['a'] ['X'] 0 0)] := by
  refine ⟨?_, ?_, by decide⟩
  · intro blocks hwf
    rw [renderTextF]
    exact parseBlocksF_some blocks _ [] hwf (by omega)
  · intro f tail hf htail
    have hq : splitChar '?' (f ++ '?' :: tail) = some (f, tail) :=
      splitChar_append '?' f tail hf
    have hb : splitChar '!' tail = none := splitChar_none '!' tail htail
    rw [parse_entries_with_offsets]
    have hlen : (f ++ '?' :: tail).length + 1 = (f ++ '?' :: tail).length + 1 := rfl
    simp only [parseBlocks, hq, hb]

/-- Witness for C3 at a concrete block list and a concrete truncated text. -/
theorem c3_lenient_parsing_witness :
    (parse_entries_with_offsets
      (renderTextF [(['g'], [[['a'], ['Y'], ['7'], ['8']]])])).isSome = true
    ∧ parse_entries_with_offsets (['g'] ++ '?' :: ['x', 'y']) = some [] :=
  ⟨c3_lenient_parsing.1 [(['g'], [[['a'], ['Y'], ['7'], ['8']]])] (by decide),
   c3_lenient_parsing.2.1 ['g'] ['x', 'y'] (by decide) (by decide)⟩

theorem get_entry_eq_match (f : CompositeMapperFile) (path : List Char) :
    f.get_entry_by_incomplete_object_path path
      = match matchingEntries f path with
        | [e] => some e
        | _ => none := rfl

/-- C7: lookup by incomplete object path returns an entry exactly when
precisely one entry of the map fuzzy-matches the query after
normalization, and then it returns that unique match; zero matches and
two-or-more matches both yield no result, so callers cannot tell the two
failure cases apart. -/
theorem c7_lookup_unique_match (f : CompositeMapperFile) (path : List Char) :
    ((f.get_entry_by_incomplete_object_path path).isSome = true
      ↔ (matchingEntries f path).length = 1)
    ∧ ∀ e, f.get_entry_by_incomplete_object_path path = some e →
        matchingEntries f path = [e] := by
  rcases hm : matchingEntries f path with _ | ⟨a, _ | ⟨b, t⟩⟩
  · rw [get_entry_eq_match, hm]
    simp
  · rw [get_entry_eq_match, hm]
    constructor
    · simp
    · intro e he
      simp at he
      simp [he]
  · rw [get_entry_eq_match, hm]
    constructor
    · simp
    · intro e he
      simp at he

/-- Witness for C7 on a one-entry map queried with its exact object path. -/
theorem c7_lookup_unique_match_witness :
    matchingEntries ⟨[], 0, [(['X'], CompositeEntry.mk ['f'] ['a'] ['X'] 1 2)],
        false, [], []⟩ ['a']
      = [CompositeEntry.mk ['f'] ['a'] ['X'] 1 2] :=
  (c7_lookup_unique_match
    ⟨[], 0, [(['X'], CompositeEntry.mk ['f'] ['a'] ['X'] 1 2)], false, [], []⟩
    ['a']).2 (CompositeEntry.mk ['f'] ['a'] ['X'] 1 2) (by decide)

/-- C9, counterexample: `remove_entry` performs a removal (returns `true`)
yet leaves the `dirty` flag unchanged — it only clears `cached_map`. The
claim that every mutating operation sets `dirty` fails on `remove_entry`. -/
theorem c9_remove_entry_leaves_dirty_unset :
    (CompositeMapperFile.remove_entry
      ⟨[], 0, [(['X'], CompositeEntry.mk ['f'] ['a'] ['X'] 1 2)], false, [], []⟩
      (CompositeEntry.mk ['f'] ['a'] ['X'] 1 2)).1 = true
    ∧ ((CompositeMapperFile.remove_entry
      ⟨[], 0, [(['X'], CompositeEntry.mk ['f'] ['a'] ['X'] 1 2)], false, [], []⟩
      (CompositeEntry.mk ['f'] ['a'] ['X'] 1 2)).2).dirty = false := by decide

/-- C9 (amended): `apply_patch` sets the dirty flag on every success, but
`remove_entry` never touches `dirty` (it clears the cached serialization
only); the callers of `remove_entry` set `dirty` themselves. -/
theorem c9_dirty_flag (f : CompositeMapperFile) :
    (∀ (cn nf : List Char) (no ns : Nat) (f' : CompositeMapperFile),
      f.apply_patch cn nf no ns = some f' → f'.dirty = true)
    ∧ ∀ e : CompositeEntry, ((f.remove_entry e).2).dirty = f.dirty := by
  constructor
  · intro cn nf no ns f' h
    rw [CompositeMapperFile.apply_patch] at h
    match hg : indexGet? f.composite_map cn with
    | none => rw [hg] at h; simp at h
    | some e =>
      rw [hg] at h
      simp only [Option.some.injEq] at h
      rw [← h]
  · intro e
    rw [CompositeMapperFile.remove_entry]
    by_cases h : (indexGet? f.composite_map e.composite_name).isSome = true <;>
      simp [h]

/-- Witness for C9: a successful `apply_patch` yields a dirty file. -/
theorem c9_dirty_flag_witness :
    (⟨[], 0, [(['X'], CompositeEntry.mk ['g'] ['a'] ['X'] 5 6)], true, [], []⟩
      : CompositeMapperFile).dirty = true :=
  (c9_dirty_flag
    ⟨[], 0, [(['X'], CompositeEntry.mk ['f'] ['a'] ['X'] 1 2)], false, [], []⟩).1
    ['X'] ['g'] 5 6 _ (by decide)

/-- C10: after any load the in-memory map holds at most one entry per
`composite_name` — the parser inserts each record keyed by its
`composite_name`, so keys are always unique — and when the input text
contains two records with the same `composite_name`, the later record
silently overwrites the earlier one (last occurrence wins, keeping the
first occurrence's position) instead of both being kept or an error being
raised: `f?a,X,1,2,|a2,X,3,4,|!` yields the single entry `(a2, X, 3, 4)`. -/
theorem c10_entry_ids_unique_last_wins :
    (∀ (data : List Char) (m : CMapEntries),
      parse_entries_with_offsets data = some m → (m.map Prod.fst).Nodup)
    ∧ parse_entries_with_offsets
        ['f', '?', 'a', ',', 'X', ',', '1', ',', '2', ',', '|',
         'a', '2', ',', 'X', ',', '3', ',', '4', ',', '|', '!']
      = some [(['X'], CompositeEntry.mk ['f'] ['a', '2'] ['X'] 3 4)] := by
  refine ⟨?_, by decide⟩
  intro data m hp
  exact (parse_wf data m hp).2

/-- Witness for C10 at the concrete one-record input `f?a,X,1,2,|!`. -/
theorem c10_entry_ids_unique_last_wins_witness :
    (([(['X'], CompositeEntry.mk ['f'] ['a'] ['X'] 1 2)] : CMapEntries).map
      Prod.fst).Nodup :=
  c10_entry_ids_unique_last_wins.1
    ['f', '?', 'a', ',', 'X', ',', '1', ',', '2', ',', '|', '!']
    [(['X'], CompositeEntry.mk ['f'] ['a'] ['X'] 1 2)] (by decide)

/-! ### Engine preservation and congruence lemmas -/

theorem turn_on_packages_mod_list : ∀ (pkgs : List CompositePackage)
    (app : TmmApp) (c : List Char),
    (turn_on_packages app c pkgs).mod_list = app.mod_list := by
  intro pkgs
  induction pkgs with
  | nil => intro app c; rfl
  | cons pkg rest ih =>
    intro app c
    match hg : app.composite_map.get_entry_by_incomplete_object_path pkg.object_path with
    | none => simp only [turn_on_packages, hg]; exact ih app c
    | some entry =>
      match hp : app.composite_map.apply_patch entry.composite_name c
          pkg.offset pkg.size with
      | none => simp only [turn_on_packages, hg, hp]; exact ih app c
      | some cm2 => simp only [turn_on_packages, hg, hp]; exact ih _ c

theorem turn_on_packages_backup_map : ∀ (pkgs : List CompositePackage)
    (app : TmmApp) (c : List Char),
    (turn_on_packages app c pkgs).backup_map = app.backup_map := by
  intro pkgs
  induction pkgs with
  | nil => intro app c; rfl
  | cons pkg rest ih =>
    intro app c
    match hg : app.composite_map.get_entry_by_incomplete_object_path pkg.object_path with
    | none => simp only [turn_on_packages, hg]; exact ih app c
    | some entry =>
      match hp : app.composite_map.apply_patch entry.composite_name c
          pkg.offset pkg.size with
      | none => simp only [turn_on_packages, hg, hp]; exact ih app c
      | some cm2 => simp only [turn_on_packages, hg, hp]; exact ih _ c

theorem turn_off_packages_mod_list : ∀ (pkgs : List CompositePackage)
    (app : TmmApp) (s : Bool),
    ((turn_off_packages app s pkgs).1).mod_list = app.mod_list := by
  intro pkgs
  induction pkgs with
  | nil => intro app s; rfl
  | cons pkg rest ih =>
    intro app s
    match hb : app.backup_map.get_entry_by_incomplete_object_path pkg.object_path with
    | some original =>
      match hp : app.composite_map.apply_patch original.composite_name
          original.filename original.offset original.size with
      | some cm2 => simp only [turn_off_packages, hb, hp]; exact ih _ s
      | none => simp only [turn_off_packages, hb, hp]
    | none =>
      match hg : app.composite_map.get_entry_by_incomplete_object_path pkg.object_path with
      | some active_entry => simp only [turn_off_packages, hb, hg]; exact ih _ s
      | none => simp only [turn_off_packages, hb, hg]; exact ih app s

theorem turn_off_packages_backup_map : ∀ (pkgs : List CompositePackage)
    (app : TmmApp) (s : Bool),
    ((turn_off_packages app s pkgs).1).backup_map = app.backup_map := by
  intro pkgs
  induction pkgs with
  | nil => intro app s; rfl
  | cons pkg rest ih =>
    intro app s
    match hb : app.backup_map.get_entry_by_incomplete_object_path pkg.object_path with
    | some original =>
      match hp : app.composite_map.apply_patch original.composite_name
          original.filename original.offset original.size with
      | some cm2 => simp only [turn_off_packages, hb, hp]; exact ih _ s
      | none => simp only [turn_off_packages, hb, hp]
    | none =>
      match hg : app.composite_map.get_entry_by_incomplete_object_path pkg.object_path with
      | some active_entry => simp only [turn_off_packages, hb, hg]; exact ih _ s
      | none => simp only [turn_off_packages, hb, hg]; exact ih app s

theorem get_entry_congr (f f' : CompositeMapperFile)
    (h : f.composite_map = f'.composite_map) (path : List Char) :
    f.get_entry_by_incomplete_object_path path
      = f'.get_entry_by_incomplete_object_path path := by
  rw [CompositeMapperFile.get_entry_by_incomplete_object_path,
    CompositeMapperFile.get_entry_by_incomplete_object_path, h]

theorem apply_patch_inner_congr (f f' : CompositeMapperFile)
    (h : f.composite_map = f'.composite_map) (cn nf : List Char) (no ns : Nat) :
    (f.apply_patch cn nf no ns).map (fun r => r.composite_map)
      = (f'.apply_patch cn nf no ns).map (fun r => r.composite_map) := by
  rw [CompositeMapperFile.apply_patch, CompositeMapperFile.apply_patch, h]
  match indexGet? f'.composite_map cn with
  | none => rfl
  | some e => simp [h]

theorem turn_on_packages_cm_congr : ∀ (pkgs : List CompositePackage)
    (a a' : TmmApp) (c : List Char),
    a.composite_map = a'.composite_map →
    (turn_on_packages a c pkgs).composite_map
      = (turn_on_packages a' c pkgs).composite_map := by
  intro pkgs
  induction pkgs with
  | nil => intro a a' c h; exact h
  | cons pkg rest ih =>
    intro a a' c h
    have hgg : a.composite_map.get_entry_by_incomplete_object_path pkg.object_path
        = a'.composite_map.get_entry_by_incomplete_object_path pkg.object_path := by
      rw [h]
    match hg : a'.composite_map.get_entry_by_incomplete_object_path pkg.object_path with
    | none =>
      simp only [turn_on_packages, hgg, hg]
      exact ih a a' c h
    | some entry =>
      have hpp : a.composite_map.apply_patch entry.composite_name c pkg.offset pkg.size
          = a'.composite_map.apply_patch entry.composite_name c pkg.offset pkg.size := by
        rw [h]
      match hp : a'.composite_map.apply_patch entry.composite_name c
          pkg.offset pkg.size with
      | none =>
        simp only [turn_on_packages, hgg, hg, hpp, hp]
        exact ih a a' c h
      | some cm2 =>
        simp only [turn_on_packages, hgg, hg, hpp, hp]
        exact ih _ _ c rfl

theorem turn_on_packages_inner_congr : ∀ (pkgs : List CompositePackage)
    (a a' : TmmApp) (c : List Char),
    a.composite_map.composite_map = a'.composite_map.composite_map →
    (turn_on_packages a c pkgs).composite_map.composite_map
      = (turn_on_packages a' c pkgs).composite_map.composite_map := by
  intro pkgs
  induction pkgs with
  | nil => intro a a' c h; exact h
  | cons pkg rest ih =>
    intro a a' c h
    have hgg := get_entry_congr a.composite_map a'.composite_map h pkg.object_path
    match hg : a'.composite_map.get_entry_by_incomplete_object_path pkg.object_path with
    | none =>
      simp only [turn_on_packages, hgg, hg]
      exact ih a a' c h
    | some entry =>
      have hmap := apply_patch_inner_congr a.composite_map a'.composite_map h
        entry.composite_name c pkg.offset pkg.size
      match hp : a.composite_map.apply_patch entry.composite_name c
            pkg.offset pkg.size,
          hp' : a'.composite_map.apply_patch entry.composite_name c
            pkg.offset pkg.size with
      | none, none =>
        simp only [turn_on_packages, hgg, hg, hp, hp']
        exact ih a a' c h
      | none, some r' => rw [hp, hp'] at hmap; simp at hmap
      | some r, none => rw [hp, hp'] at hmap; simp at hmap
      | some r, some r' =>
        rw [hp, hp'] at hmap
        simp only [Option.map_some'] at hmap
        injection hmap with hmap2
        simp only [turn_on_packages, hgg, hg, hp, hp']
        exact ih _ _ c hmap2

theorem foldl_turn_on_mod_list : ∀ (mfs : List ModFile) (a : TmmApp),
    (mfs.foldl (fun x mf => turn_on_mod x mf) a).mod_list = a.mod_list := by
  intro mfs
  induction mfs with
  | nil => intro a; rfl
  | cons mf rest ih =>
    intro a
    rw [List.foldl_cons, ih (turn_on_mod a mf)]
    exact turn_on_packages_mod_list _ _ _

theorem foldl_turn_on_backup_map : ∀ (mfs : List ModFile) (a : TmmApp),
    (mfs.foldl (fun x mf => turn_on_mod x mf) a).backup_map = a.backup_map := by
  intro mfs
  induction mfs with
  | nil => intro a; rfl
  | cons mf rest ih =>
    intro a
    rw [List.foldl_cons, ih (turn_on_mod a mf)]
    exact turn_on_packages_backup_map _ _ _

theorem foldl_turn_on_inner_congr : ∀ (mfs : List ModFile) (a a' : TmmApp),
    a.composite_map.composite_map = a'.composite_map.composite_map →
    (mfs.foldl (fun x mf => turn_on_mod x mf) a).composite_map.composite_map
      = (mfs.foldl (fun x mf => turn_on_mod x mf) a').composite_map.composite_map := by
  intro mfs
  induction mfs with
  | nil => intro a a' h; exact h
  | cons mf rest ih =>
    intro a a' h
    rw [List.foldl_cons, List.foldl_cons]
    exact ih _ _ (turn_on_packages_inner_congr mf.packages a a' mf.container h)

theorem apply_enabled_mods_mod_list (app : TmmApp) :
    (apply_enabled_mods app).mod_list = app.mod_list := by
  simp only [apply_enabled_mods]
  split
  · exact foldl_turn_on_mod_list _ _
  · exact foldl_turn_on_mod_list _ _

theorem apply_enabled_mods_backup_map (app : TmmApp) :
    (apply_enabled_mods app).backup_map = app.backup_map := by
  simp only [apply_enabled_mods]
  split
  · exact foldl_turn_on_backup_map _ _
  · exact foldl_turn_on_backup_map _ _

theorem apply_enabled_mods_inner (app : TmmApp) :
    (apply_enabled_mods app).composite_map.composite_map
      = (((app.mod_list.filter (fun e => e.enabled)).map (fun e => e.mod_file)).foldl
          (fun x mf => turn_on_mod x mf)
          { app with composite_map :=
            { app.composite_map with composite_map := app.backup_map.composite_map } }
        ).composite_map.composite_map := by
  simp only [apply_enabled_mods]
  split
  · rfl
  · rfl

/-- C8: `apply_enabled_mods` is idempotent on the active map: a second
call with the mod list, backup map and mod declarations unchanged (all of
which the first call preserves) rebuilds exactly the same entry list, so
the serialized active map is byte-identical after each call. -/
theorem c8_apply_enabled_mods_idempotent (app : TmmApp) :
    (apply_enabled_mods (apply_enabled_mods app)).composite_map.composite_map
      = (apply_enabled_mods app).composite_map.composite_map
    ∧ serialize_composite_map_to_string
        ((apply_enabled_mods (apply_enabled_mods app)).composite_map.composite_map)
      = serialize_composite_map_to_string
        ((apply_enabled_mods app).composite_map.composite_map) := by
  have hmain :
      (apply_enabled_mods (apply_enabled_mods app)).composite_map.composite_map
        = (apply_enabled_mods app).composite_map.composite_map := by
    rw [apply_enabled_mods_inner (apply_enabled_mods app), apply_enabled_mods_inner app,
      apply_enabled_mods_mod_list app]
    apply foldl_turn_on_inner_congr
    show (apply_enabled_mods app).backup_map.composite_map
      = app.backup_map.composite_map
    rw [apply_enabled_mods_backup_map]
  exact ⟨hmain, by rw [hmain]⟩

/-! ### `enable_mod_safely` conflict lemmas -/

theorem getD_set_self_me (l : List ModEntry) (i : Nat) (v : ModEntry)
    (h : i < l.length) : (l.set i v).getD i default = v := by
  simp [List.getD, List.getElem?_set, h]

theorem getD_set_ne_me (l : List ModEntry) (i j : Nat) (v : ModEntry)
    (h : i ≠ j) : (l.set i v).getD j default = l.getD j default := by
  simp [List.getD, List.getElem?_set, h]

theorem getD_default_me (l : List ModEntry) (n : Nat) (h : l.length ≤ n) :
    l.getD n default = default := by
  simp [List.getD, List.getElem?_eq_none h]

theorem disable_conflicts_cons (a : TmmApp) (idx : Nat) (rest : List Nat) :
    disable_conflicts a (idx :: rest)
      = disable_conflicts
          (if (a.mod_list.getD idx default).enabled then
            (turn_off_mod
              { a with mod_list := a.mod_list.set idx { a.mod_list.getD idx default with enabled := false } }
              (a.mod_list.getD idx default).mod_file true).1
          else a)
          rest := rfl

theorem disable_step_mod_list (a : TmmApp) (idx : Nat) :
    ((if (a.mod_list.getD idx default).enabled then
        (turn_off_mod
          { a with mod_list := a.mod_list.set idx { a.mod_list.getD idx default with enabled := false } }
          (a.mod_list.getD idx default).mod_file true).1
      else a)).mod_list
    = (if (a.mod_list.getD idx default).enabled then
        a.mod_list.set idx { a.mod_list.getD idx default with enabled := false }
      else a.mod_list) := by
  by_cases h : (a.mod_list.getD idx default).enabled
  · rw [if_pos h, if_pos h, turn_off_mod, turn_off_packages_mod_list]
  · rw [if_neg h, if_neg h]

theorem disable_conflicts_length : ∀ (idxs : List Nat) (a : TmmApp),
    (disable_conflicts a idxs).mod_list.length = a.mod_list.length := by
  intro idxs
  induction idxs with
  | nil => intro a; rfl
  | cons idx rest ih =>
    intro a
    rw [disable_conflicts_cons, ih, disable_step_mod_list]
    split
    · simp
    · rfl

theorem disable_conflicts_stays_false : ∀ (idxs : List Nat) (a : TmmApp) (j : Nat),
    (a.mod_list.getD j default).enabled = false →
    ((disable_conflicts a idxs).mod_list.getD j default).enabled = false := by
  intro idxs
  induction idxs with
  | nil => intro a j h; exact h
  | cons idx rest ih =>
    intro a j h
    rw [disable_conflicts_cons]
    apply ih
    rw [disable_step_mod_list]
    split
    · by_cases hij : idx = j
      · subst hij
        by_cases hlen : idx < a.mod_list.length
        · rw [getD_set_self_me _ _ _ hlen]
        · rw [List.set_eq_of_length_le (Nat.le_of_not_lt hlen)]
          exact h
      · rw [getD_set_ne_me _ _ _ _ hij]
        exact h
    · exact h

theorem disable_conflicts_mem_false : ∀ (idxs : List Nat) (a : TmmApp) (j : Nat),
    j ∈ idxs →
    ((disable_conflicts a idxs).mod_list.getD j default).enabled = false := by
  intro idxs
  induction idxs with
  | nil => intro a j h; cases h
  | cons idx rest ih =>
    intro a j hj
    rw [disable_conflicts_cons]
    rcases List.mem_cons.mp hj with rfl | hj'
    · apply disable_conflicts_stays_false
      rw [disable_step_mod_list]
      split
      · by_cases hlen : j < a.mod_list.length
        · rw [getD_set_self_me _ _ _ hlen]
        · rw [List.set_eq_of_length_le (Nat.le_of_not_lt hlen),
            getD_default_me _ _ (Nat.le_of_not_lt hlen)]
          rfl
      · rename_i henab
        simp only [Bool.not_eq_true] at henab
        exact henab
    · exact ih _ j hj'

theorem find_conflicting_go_mem : ∀ (ml : List ModEntry) (idx0 j : Nat)
    (pkgs : List CompositePackage),
    j < ml.length →
    (ml.getD j default).enabled = true →
    (∃ p ∈ pkgs, ∃ q ∈ (ml.getD j default).mod_file.packages,
      p.object_path = q.object_path) →
    (idx0 + j) ∈ find_conflicting_go idx0 pkgs ml := by
  intro ml
  induction ml with
  | nil => intro idx0 j pkgs hj; exact absurd hj (by simp)
  | cons me rest ih =>
    intro idx0 j pkgs hj hen hex
    cases j with
    | zero =>
      have hme : (me :: rest).getD 0 default = me := rfl
      rw [hme] at hen hex
      simp only [find_conflicting_go]
      rw [Nat.add_zero]
      apply List.mem_append_left
      rw [if_pos hen]
      obtain ⟨p, hp, q, hq, hpq⟩ := hex
      apply List.mem_map.mpr
      refine ⟨p, List.mem_filter.mpr ⟨hp, ?_⟩, rfl⟩
      apply List.any_eq_true.mpr
      exact ⟨q, hq, by simp [hpq]⟩
    | succ j' =>
      have hme : (me :: rest).getD (j'+1) default = rest.getD j' default := rfl
      rw [hme] at hen hex
      simp only [find_conflicting_go]
      apply List.mem_append_right
      have hj' : j' < rest.length := by
        simp [List.length_cons] at hj; omega
      have hmem := ih (idx0+1) j' pkgs hj' hen hex
      have harith : idx0 + (j'+1) = (idx0 + 1) + j' := by omega
      rw [harith]
      exact hmem

theorem turn_on_packages_cm_set (a : TmmApp) (ml : List ModEntry)
    (c : List Char) (pkgs : List CompositePackage) :
    (turn_on_packages { a with mod_list := ml } c pkgs).composite_map
      = (turn_on_packages a c pkgs).composite_map :=
  turn_on_packages_cm_congr pkgs { a with mod_list := ml } a c rfl

theorem enable_mod_safely_mod_list (app : TmmApp) (i : Nat)
    (hi : i < app.mod_list.length) :
    (enable_mod_safely app i).mod_list
      = (disable_conflicts app (find_conflicting_indices app
          (app.mod_list.getD i default).mod_file.packages)).mod_list.set i
        { (disable_conflicts app (find_conflicting_indices app
            (app.mod_list.getD i default).mod_file.packages)).mod_list.getD i default
          with enabled := true } := by
  rw [enable_mod_safely, if_neg (by omega)]
  simp only [update_mods_list, turn_on_mod]
  rw [turn_on_packages_mod_list]

theorem enable_mod_safely_composite (app : TmmApp) (i : Nat)
    (hi : i < app.mod_list.length) :
    (enable_mod_safely app i).composite_map
      = { (turn_on_packages
            (disable_conflicts app (find_conflicting_indices app
              (app.mod_list.getD i default).mod_file.packages))
            (app.mod_list.getD i default).mod_file.container
            (app.mod_list.getD i default).mod_file.packages).composite_map
          with dirty := true } := by
  rw [enable_mod_safely, if_neg (by omega)]
  simp only [update_mods_list, turn_on_mod]
  rw [turn_on_packages_cm_set]

/-- C5: enabling a disabled mod `M = mod_list[i]` through
`enable_mod_safely` force-disables every other currently enabled mod
declaring an `object_path` raw-string-equal to one of `M`'s declared
paths (its flag is `false` in the result), sets `M`'s flag, and the
resulting active map is exactly `M`'s patches applied *after*
`disable_conflicts` (which turns each conflicting mod off with
`silent = true`), then marked dirty. -/
theorem c5_enable_mod_safely_force_disables_conflicts (app : TmmApp) (i : Nat)
    (hi : i < app.mod_list.length)
    (hd : (app.mod_list.getD i default).enabled = false) :
    (∀ j, j < app.mod_list.length →
      (app.mod_list.getD j default).enabled = true →
      (∃ p ∈ (app.mod_list.getD i default).mod_file.packages,
        ∃ q ∈ (app.mod_list.getD j default).mod_file.packages,
          p.object_path = q.object_path) →
      ((enable_mod_safely app i).mod_list.getD j default).enabled = false)
    ∧ ((enable_mod_safely app i).mod_list.getD i default).enabled = true
    ∧ (enable_mod_safely app i).composite_map
        = { (turn_on_packages
              (disable_conflicts app (find_conflicting_indices app
                (app.mod_list.getD i default).mod_file.packages))
              (app.mod_list.getD i default).mod_file.container
              (app.mod_list.getD i default).mod_file.packages).composite_map
            with dirty := true } := by
  refine ⟨?_, ?_, enable_mod_safely_composite app i hi⟩
  · intro j hjlen hjen hex
    have hji : j ≠ i := by
      intro hrfl
      rw [hrfl] at hjen
      rw [hjen] at hd
      exact Bool.noConfusion hd
    have hjconf : j ∈ find_conflicting_indices app
        (app.mod_list.getD i default).mod_file.packages := by
      have hmem := find_conflicting_go_mem app.mod_list 0 j
        (app.mod_list.getD i default).mod_file.packages hjlen hjen hex
      simpa using hmem
    rw [enable_mod_safely_mod_list app i hi,
      getD_set_ne_me _ _ _ _ (Ne.symm hji)]
    exact disable_conflicts_mem_false _ app j hjconf
  · rw [enable_mod_safely_mod_list app i hi]
    have hlen : i < (disable_conflicts app (find_conflicting_indices app
        (app.mod_list.getD i default).mod_file.packages)).mod_list.length := by
      rw [disable_conflicts_length]
      exact hi
    rw [getD_set_self_me _ _ _ hlen]

/-- Witness for C5 at a two-mod scenario: mod 0 is enabled and shares
path `A` with the disabled mod 1; enabling mod 1 disables mod 0 and
enables mod 1. -/
theorem c5_enable_mod_safely_force_disables_conflicts_witness :
    (1 < app5.mod_list.length ∧ (app5.mod_list.getD 1 default).enabled = false)
    ∧ ((enable_mod_safely app5 1).mod_list.getD 0 default).enabled = false
    ∧ ((enable_mod_safely app5 1).mod_list.getD 1 default).enabled = true := by
  have h := c5_enable_mod_safely_force_disables_conflicts app5 1 (by decide) (by decide)
  exact ⟨⟨by decide, by decide⟩,
    h.1 0 (by decide) (by decide) ⟨pkgA, by decide, pkgA, by decide, rfl⟩,
    h.2.1⟩

/-- Counterexample to C6: mod `mf6` declares paths `a` and `b`; both have
backup originals, but the active map lacks the entry `X` that path `a`'s
original patches, so `apply_patch` fails. The `?` aborts `turn_off_mod`
at once — the state is returned unchanged (package `b`'s entry `Y` stays
at its modded values instead of reverting to the backup's) with an error
result — rather than continuing with the remaining package. -/
theorem c6_turn_off_mod_abort_counterexample :
    turn_off_mod app6 mf6 false = (app6, false)
    ∧ indexGet? ((turn_off_mod app6 mf6 false).1).composite_map.composite_map ['Y']
        = some (CompositeEntry.mk ['m'] ['b'] ['Y'] 9 9) := by decide

/-- C6 (amended): only a *resolution* miss is a mere warning. If none of a
mod's declared paths has a backup original, `turn_off` processes every
package and succeeds; conversely the only way `turn_off` reports failure
is that some declared path *does* resolve in the backup (and its
`apply_patch` on the active map then fails, aborting the loop). -/
theorem c6_turn_off_miss_is_warning_patch_failure_aborts :
    (∀ (pkgs : List CompositePackage) (app : TmmApp) (s : Bool),
      (∀ pkg ∈ pkgs,
        app.backup_map.get_entry_by_incomplete_object_path pkg.object_path = none) →
      (turn_off_packages app s pkgs).2 = true)
    ∧ (∀ (pkgs : List CompositePackage) (app : TmmApp) (s : Bool),
      (turn_off_packages app s pkgs).2 = false →
      ∃ pkg ∈ pkgs,
        (app.backup_map.get_entry_by_incomplete_object_path pkg.object_path).isSome) := by
  constructor
  · intro pkgs
    induction pkgs with
    | nil => intro app s h; rfl
    | cons pkg rest ih =>
      intro app s h
      have hpkg := h pkg (List.mem_cons_self pkg rest)
      match hg : app.composite_map.get_entry_by_incomplete_object_path pkg.object_path with
      | some active_entry =>
        simp only [turn_off_packages, hpkg, hg]
        exact ih _ s (fun q hq => h q (List.mem_cons_of_mem _ hq))
      | none =>
        simp only [turn_off_packages, hpkg, hg]
        exact ih app s (fun q hq => h q (List.mem_cons_of_mem _ hq))
  · intro pkgs
    induction pkgs with
    | nil =>
      intro app s h
      simp only [turn_off_packages] at h
      exact absurd h (by decide)
    | cons pkg rest ih =>
      intro app s h
      match hb : app.backup_map.get_entry_by_incomplete_object_path pkg.object_path with
      | some original =>
        exact ⟨pkg, List.mem_cons_self pkg rest, by rw [hb]; rfl⟩
      | none =>
        match hg : app.composite_map.get_entry_by_incomplete_object_path pkg.object_path with
        | some active_entry =>
          simp only [turn_off_packages, hb, hg] at h
          obtain ⟨q, hq, hsome⟩ := ih _ s h
          exact ⟨q, List.mem_cons_of_mem _ hq, hsome⟩
        | none =>
          simp only [turn_off_packages, hb, hg] at h
          obtain ⟨q, hq, hsome⟩ := ih app s h
          exact ⟨q, List.mem_cons_of_mem _ hq, hsome⟩

/-- Witness for the amended C6 at a path absent from `app6`'s backup. -/
theorem c6_turn_off_miss_is_warning_witness :
    (∀ pkg ∈ [pkg6z],
      app6.backup_map.get_entry_by_incomplete_object_path pkg.object_path = none)
    ∧ (turn_off_packages app6 false [pkg6z]).2 = true := by
  refine ⟨by decide, ?_⟩
  exact c6_turn_off_miss_is_warning_patch_failure_aborts.1 [pkg6z] app6 false (by decide)

/-- C4: `save` is a single in-place `fs::write` of the encrypted
serialization directly to the destination; no temporary file is written
and no rename is performed, so the write-temp-then-replace contract is
not implemented. -/
theorem c4_save_single_in_place_write_no_rename (f : CompositeMapperFile)
    (dest : List Char) :
    CompositeMapperFile.saveOps f dest
      = [FsOp.write dest
          (encrypt_mapper (strBytes (serialize_composite_map_to_string f.composite_map)))]
    ∧ ∀ op ∈ CompositeMapperFile.saveOps f dest, op.isRename = false := by
  refine ⟨rfl, ?_⟩
  intro op hop
  rw [CompositeMapperFile.saveOps] at hop
  rcases List.mem_singleton.mp hop with rfl
  rfl
